import Mathlib

/-!
Verification of the red-black tree container in `src/rbtree/src/rbtree.rs`
(crate `rbtree` of the `cement-rs` repository).

The Rust implementation is a pointer-linked binary tree with parent
back-links; every mutating routine walks child pointers downward and parent
pointers upward.  The embedding below represents the same data purely:

* a tree node (`Tree.node color left key value right`) carries exactly the
  fields of `rbnode`'s node (key, value, color, left, right); the parent
  back-link is represented by a zipper path (`PathStep` / `Path`): walking
  to `node.parent()` corresponds to popping one `PathStep`, and each step
  records the parent's color, key, value, the direction from the parent to
  the current node, and the sibling subtree, so the upward loops of
  `insert_fixup` and `delete_fixup` become recursion on the path.
* `plug t p` rebuilds the full tree from the subtree `t` in context `p`
  (corresponds to following parent pointers back to `self.root`).
* rotations (`left_rotate`, `right_rotate`, lines 436-476) are local
  re-linkings of three nodes; in the zipper form they appear inline at the
  places where the source calls them, as the corresponding re-association
  of constructors.

Keys are taken in an arbitrary linear order, matching `K: Ord` in the
source; witnesses instantiate `K = Int`, `V = Int`.
-/

namespace RB

/-- Color tag of a node, `Color` in `rbnode` (spec section 3). -/
inductive Color : Type
  | red
  | black
deriving DecidableEq, Repr

/-- Direction from a parent node to a child slot. -/
inductive Dir : Type
  | left
  | right
deriving DecidableEq, Repr

/-- Binary tree of key-value nodes; `Tree.nil` is an absent link (a null
`NodePtr`), `Tree.node c l k v r` is a heap node with color `c`, left child
`l`, key `k`, value `v`, right child `r`. -/
inductive Tree (K V : Type) : Type
  | nil
  | node (c : Color) (l : Tree K V) (k : K) (v : V) (r : Tree K V)
deriving DecidableEq, Repr

/-- One parent link: the current subtree is the `dir` child of a node with
color `color`, key `key`, value `value`, whose other child is `sibling`. -/
structure PathStep (K V : Type) : Type where
  dir : Dir
  color : Color
  key : K
  value : V
  sibling : Tree K V
deriving DecidableEq, Repr

/-- Chain of parent links from a subtree up to the root (innermost first). -/
abbrev Path (K V : Type) : Type := List (PathStep K V)

variable {K V : Type}

/-- Three-way comparison used by every search loop in the source
(`k.cmp(x.get_key())`, Rust `Ord::cmp`). -/
def cmp [LinearOrder K] (a b : K) : Ordering :=
  if a < b then .lt else if b < a then .gt else .eq

namespace Tree

/-- Test `is_black_color` of `rbnode`: an absent link counts as black
(spec section 4.1, color policy). -/
def isBlackB : Tree K V → Bool
  | nil => true
  | node c _ _ _ _ => c = Color.black

/-- Test `is_red_color` of `rbnode`: an absent link is not red. -/
def isRedB : Tree K V → Bool
  | nil => false
  | node c _ _ _ _ => c = Color.red

/-- Mutation `set_black_color` on a node (no-op on an absent link, which the
source never does on a reachable code path). -/
def setBlack : Tree K V → Tree K V
  | nil => nil
  | node _ l k v r => node Color.black l k v r

/-- Mutation `set_red_color` on a node. -/
def setRed : Tree K V → Tree K V
  | nil => nil
  | node _ l k v r => node Color.red l k v r

/-- Accessor `left()` of `rbnode` (null on an absent link). -/
def leftT : Tree K V → Tree K V
  | nil => nil
  | node _ l _ _ _ => l

/-- Accessor `right()` of `rbnode`. -/
def rightT : Tree K V → Tree K V
  | nil => nil
  | node _ _ _ _ r => r

/-- In-order entry sequence of the subtree, the order in which the cursors
of section 4.5 present nodes. -/
def inorder : Tree K V → List (K × V)
  | nil => []
  | node _ l k v r => inorder l ++ (k, v) :: inorder r

/-- Key sequence of the in-order traversal. -/
def keyList (t : Tree K V) : List K := (inorder t).map Prod.fst

end Tree

open Tree

/-- Rebuild the parent node from a child subtree and one parent link. -/
def stepTree (t : Tree K V) (st : PathStep K V) : Tree K V :=
  match st.dir with
  | .left => .node st.color t st.key st.value st.sibling
  | .right => .node st.color st.sibling st.key st.value t

/-- Rebuild the whole tree from a subtree and its parent chain: follows
parent pointers from the current node back to `self.root`. -/
def plug : Tree K V → Path K V → Tree K V
  | t, [] => t
  | t, st :: rest => plug (stepTree t st) rest

/-- Rotation arm of one `insert_fixup` iteration (rbtree.rs lines
492-508): with a black or absent uncle, a triangle shape is first
flattened by rotating the parent, then the parent is blackened, the
grandparent reddened and rotated; the result replaces the grandparent in
the remaining context.  The absent fallbacks are unreachable: the current
node of the loop is a real node. -/
def insert_rotate (n : Tree K V) (p1 p2 : PathStep K V) : Tree K V :=
  match p1.dir, p2.dir with
  | .left, .left =>
    -- node a left child, parent a left child: right_rotate(grandparent)
    .node Color.black n p1.key p1.value
      (.node Color.red p1.sibling p2.key p2.value p2.sibling)
  | .right, .left =>
    -- triangle (lines 493-495): left_rotate(parent), then
    -- right_rotate(grandparent)
    match n with
    | .node _ a kn vn b =>
      .node Color.black (.node Color.red p1.sibling p1.key p1.value a)
        kn vn (.node Color.red b p2.key p2.value p2.sibling)
    | .nil => .nil
  | .left, .right =>
    -- triangle (lines 496-498): right_rotate(parent), then
    -- left_rotate(grandparent)
    match n with
    | .node _ a kn vn b =>
      .node Color.black (.node Color.red p2.sibling p2.key p2.value a)
        kn vn (.node Color.red b p1.key p1.value p1.sibling)
    | .nil => .nil
  | .right, .right =>
    -- node a right child, parent a right child: left_rotate(grandparent)
    .node Color.black
      (.node Color.red p2.sibling p2.key p2.value p1.sibling)
      p1.key p1.value n

/-- Loop `insert_fixup` (rbtree.rs lines 478-512), restoring the color
invariants after an insertion.  The current node is `n`, its parent chain
is the path.  One loop iteration with a red uncle (the recoloring case)
pops two parent links and recurses; every other branch leaves the loop and
then performs the final `self.root.set_black_color()` (line 511), which is
`setBlack` applied to the fully re-plugged tree.  The source reads the
uncle and grandparent through parent pointers; a red parent that is the
root cannot occur (the root is black between operations), and in that
unreachable case the function just rebuilds the tree. -/
def insert_fixup : Tree K V → Path K V → Tree K V
  | n, [] => setBlack n
  | n, [p1] => setBlack (plug n [p1])
  | n, p1 :: p2 :: rest =>
    if p1.color = Color.black then
      -- parent is black: break (line 482), then root.set_black_color()
      setBlack (plug n (p1 :: p2 :: rest))
    else
      if isRedB p2.sibling then
        -- red uncle (lines 487-491): recolor parent, uncle, grandparent
        -- and continue from the grandparent (two parent links consumed)
        insert_fixup
          (stepTree (stepTree n { p1 with color := Color.black })
            { p2 with color := Color.red, sibling := setBlack p2.sibling })
          rest
      else
        -- black or absent uncle (lines 492-508): `insert_rotate` performs
        -- the rotations and recoloring, then the loop breaks
        setBlack (plug (insert_rotate n p1 p2) rest)

/-- Descent loop of `insert` (rbtree.rs lines 514-555).  Walks down from
the root comparing keys; on an equal key it replaces the value in place and
returns the previous value (line 525); on reaching an absent link it
allocates a red node there (lines 534-550) and runs `insert_fixup`.
Returns the new whole tree and the replaced value, if any. -/
def insert_go [LinearOrder K] :
    Tree K V → Path K V → K → V → Tree K V × Option V
  | .nil, path, k, v => (insert_fixup (.node Color.red .nil k v .nil) path, none)
  | .node c l x y r, path, k, v =>
    match cmp k x with
    | .lt => insert_go l (⟨.left, c, x, y, r⟩ :: path) k v
    | .eq => (plug (.node c l x v r) path, some y)
    | .gt => insert_go r (⟨.right, c, x, y, l⟩ :: path) k v

/-- Search loop `find_node` (rbtree.rs lines 557-573); returns the node
with the given key, as its key-value pair, or absent. -/
def find_node [LinearOrder K] : Tree K V → K → Option (K × V)
  | .nil, _ => none
  | .node _ l x y r, k =>
    match cmp k x with
    | .lt => find_node l k
    | .gt => find_node r k
    | .eq => some (x, y)

/-- Search loop `find_less_equal` (rbtree.rs lines 575-595): on each
greater step the current node is memorized as the running best candidate;
an equal key returns `(node, true)`; falling off the tree returns the
memorized candidate and `false`. -/
def find_less_equal_go [LinearOrder K] :
    Tree K V → Option (K × V) → K → Option (K × V) × Bool
  | .nil, less, _ => (less, false)
  | .node _ l x y r, less, k =>
    match cmp k x with
    | .lt => find_less_equal_go l less k
    | .gt => find_less_equal_go r (some (x, y)) k
    | .eq => (some (x, y), true)

/-- Shared tail of one `delete_fixup` iteration (rbtree.rs lines 745-769,
cases 3 and 4 of spec section 4.4): the hole `n` sits on side `d` of a
parent with color `cp`, key `kp`, value `vp`; `s` is the (black, non-absent
in every reachable state) sibling.  If the far child of `s` is black the
near child is recolored black, `s` red, and `s` is rotated away from the
hole (case 3); then `s` takes the parent's color, the parent and the far
child turn black, and the parent is rotated toward the hole (case 4).  The
loop then sets `node = self.root` and breaks, after which line 772 blackens
that node, so the rebuilt tree gets `setBlack` at its root.  The absent-
sibling fallbacks are unreachable: a sibling of a double-black hole is
never absent in a tree satisfying the black-height invariant. -/
def delete_cases34 (d : Dir) (cp : Color) (kp : K) (vp : V)
    (n s : Tree K V) (rest : Path K V) : Tree K V :=
  match d, s with
  | .left, .node cs sl ks vs sr =>
    let s2 :=
      if isBlackB sr then
        match sl with
        | .node _ sll ksl vsl slr =>
          -- case 3: sibleft.set_black, sibling.set_red, right_rotate(s)
          Tree.node Color.black sll ksl vsl (.node Color.red slr ks vs sr)
        | .nil => Tree.node cs sl ks vs sr
      else Tree.node cs sl ks vs sr
    match s2 with
    | .node _ sl2 ks2 vs2 sr2 =>
      -- case 4: s takes the parent's color, parent black, far child
      -- black, left_rotate(parent)
      setBlack (plug
        (.node cp (.node Color.black n kp vp sl2) ks2 vs2 (setBlack sr2))
        rest)
    | .nil => setBlack (plug n rest)
  | .right, .node cs sl ks vs sr =>
    let s2 :=
      if isBlackB sl then
        match sr with
        | .node _ srl ksr vsr srr =>
          -- mirror case 3: sibright.set_black, sibling.set_red,
          -- left_rotate(s)
          Tree.node Color.black (.node Color.red sl ks vs srl) ksr vsr srr
        | .nil => Tree.node cs sl ks vs sr
      else Tree.node cs sl ks vs sr
    match s2 with
    | .node _ sl2 ks2 vs2 sr2 =>
      setBlack (plug
        (.node cp (setBlack sl2) ks2 vs2 (.node Color.black sr2 kp vp n))
        rest)
    | .nil => setBlack (plug n rest)
  | _, .nil => setBlack (plug n rest)

/-- Loop `delete_fixup` (rbtree.rs lines 723-773), restoring the invariants
after a black node was unlinked.  The hole is the subtree `n` (possibly
absent), its parent chain is the path.  A red hole, or a hole at the root,
leaves the loop at once and is blackened (line 772).  A red sibling is
first rotated to a black one (lines 727-737, case 1), which pushes one
rebuilt parent link onto the chain; if both of the sibling's children are
black the sibling turns red and the hole moves to the parent (lines
741-744, case 2, the only repeating branch); otherwise `delete_cases34`
finishes the repair and the loop breaks. -/
def dfWeight : Tree K V → Nat
  | .node Color.red _ _ _ _ => 0
  | _ => 1

def delete_fixup : Tree K V → Path K V → Tree K V
  | n, [] => setBlack n
  | n, p1 :: rest =>
    if _hred : isRedB n then plug (setBlack n) (p1 :: rest)
    else
      match p1.dir, p1.sibling with
      | .left, .node Color.red sl ks vs sr =>
        -- case 1, hole on the left: sibling black, parent red,
        -- left_rotate(parent); the new sibling is the old sibling's left
        -- child and the rebuilt black node joins the parent chain
        let rest' : Path K V := ⟨.left, Color.black, ks, vs, sr⟩ :: rest
        if isBlackB (leftT sl) && isBlackB (rightT sl) then
          delete_fixup (.node Color.red n p1.key p1.value (setRed sl)) rest'
        else delete_cases34 .left Color.red p1.key p1.value n sl rest'
      | .right, .node Color.red sl ks vs sr =>
        -- case 1 mirrored: right_rotate(parent)
        let rest' : Path K V := ⟨.right, Color.black, ks, vs, sl⟩ :: rest
        if isBlackB (leftT sr) && isBlackB (rightT sr) then
          delete_fixup (.node Color.red (setRed sr) p1.key p1.value n) rest'
        else delete_cases34 .right Color.red p1.key p1.value n sr rest'
      | .left, s =>
        if isBlackB (leftT s) && isBlackB (rightT s) then
          -- case 2: sibling turns red, hole moves to the parent
          delete_fixup (.node p1.color n p1.key p1.value (setRed s)) rest
        else delete_cases34 .left p1.color p1.key p1.value n s rest
      | .right, s =>
        if isBlackB (leftT s) && isBlackB (rightT s) then
          delete_fixup (.node p1.color (setRed s) p1.key p1.value n) rest
        else delete_cases34 .right p1.color p1.key p1.value n s rest
termination_by n path => 2 * path.length + dfWeight n
decreasing_by
  all_goals simp only [List.length_cons, dfWeight.eq_def]
  all_goals split <;> (try split) <;> simp_all [Tree.isRedB] <;> omega

/-- Left-spine descent `node.next()` inside `delete` for a node with two
children (rbtree.rs line 782 together with the `min_node` walk of
`rbnode`): returns the key, value, color and right child of the in-order
successor, and the parent chain from the successor's slot up to (and
excluding) the right child of the deleted node; the chain consists of left
links only. -/
def splitMin : Color → Tree K V → K → V → Tree K V → Path K V →
    K × V × Color × Tree K V × Path K V
  | c, .nil, x, y, r, path => (x, y, c, r, path)
  | c, .node cl ll xl yl rl, x, y, r, path =>
    splitMin cl ll xl yl rl (⟨.left, c, x, y, r⟩ :: path)

/-- Unlinking routine `delete` (rbtree.rs lines 775-839) for the node
`node c l x y r` whose parent chain is `path`; returns the new whole tree
(the removed pair is the caller's `(x, y)`).

With two children (lines 781-815) the in-order successor `s` is spliced
into the node's place, keeping the node's color; the hole is `s`'s former
right child, whose parent chain runs through the successor's old ancestors
inside `r` and then the replacement node itself (`parent == node` in the
source corresponds to an empty inner chain).  `delete_fixup` runs when the
successor's original color was black.

With at most one child (lines 817-838) the present child, if any, replaces
the node directly, and `delete_fixup` runs when the node was black. -/
def delete_at (c : Color) (l : Tree K V) (x : K) (y : V) (r : Tree K V)
    (path : Path K V) : Tree K V :=
  match l, r with
  | .node cl ll xl yl rl, .node cr rl' xr yr rr =>
    let m := splitMin cr rl' xr yr rr []
    match m with
    | (ks, vs, cs, sr, ip) =>
      let holePath : Path K V :=
        ip ++ ⟨.right, c, ks, vs, .node cl ll xl yl rl⟩ :: path
      if cs = Color.black then delete_fixup sr holePath
      else plug sr holePath
  | _, _ =>
    let child := match l with | .nil => r | _ => l
    if c = Color.black then delete_fixup child path
    else plug child path

/-- Descent part of `remove` (rbtree.rs lines 715-721 via `find_node`):
locates the node with key `k` and unlinks it with `delete_at`; absent keys
leave the tree untouched and return nothing. -/
def remove_go [LinearOrder K] :
    Tree K V → Path K V → K → Option (Tree K V × V)
  | .nil, _, _ => none
  | .node c l x y r, path, k =>
    match cmp k x with
    | .lt => remove_go l (⟨.left, c, x, y, r⟩ :: path) k
    | .gt => remove_go r (⟨.right, c, x, y, l⟩ :: path) k
    | .eq => some (delete_at c l x y r path, y)

/-- Left descent `first_child` / `pop_first` (rbtree.rs lines 597-607 and
637-643): walk to the minimum, then unlink it.  The minimum has an absent
left child, so its `delete_at` always takes the at-most-one-child branch. -/
def pop_first_go : Tree K V → Path K V → Option (Tree K V × K × V)
  | .nil, _ => none
  | .node c .nil x y r, path => some (delete_at c .nil x y r path, x, y)
  | .node c (.node cl ll xl yl rl) x y r, path =>
    pop_first_go (.node cl ll xl yl rl) (⟨.left, c, x, y, r⟩ :: path)

/-- Right descent `last_child` / `pop_last` (rbtree.rs lines 609-619 and
645-651). -/
def pop_last_go : Tree K V → Path K V → Option (Tree K V × K × V)
  | .nil, _ => none
  | .node c l x y .nil, path => some (delete_at c l x y .nil path, x, y)
  | .node c l x y (.node cr rl xr yr rr), path =>
    pop_last_go (.node cr rl xr yr rr) (⟨.right, c, x, y, l⟩ :: path)

/-- Container `RBTree` (rbtree.rs lines 11-14): a root link and a stored
node count. -/
structure RBTree (K V : Type) : Type where
  root : Tree K V
  len : Nat
deriving DecidableEq, Repr

namespace RBTree

variable [LinearOrder K]

/-- Constructor `new` (lines 421-426). -/
def new : RBTree K V := ⟨.nil, 0⟩

/-- Operation `insert` (lines 514-555): returns the updated container and
the replaced value; the length grows only when no value was replaced
(line 533 runs only after the equal-key early return did not fire). -/
def insert (t : RBTree K V) (k : K) (v : V) : RBTree K V × Option V :=
  match insert_go t.root [] k v with
  | (r, some old) => (⟨r, t.len⟩, some old)
  | (r, none) => (⟨r, t.len + 1⟩, none)

/-- Operation `get` (lines 669-676). -/
def get (t : RBTree K V) (k : K) : Option V :=
  (find_node t.root k).map Prod.snd

/-- Operation `get_first` (lines 621-627): the entry at the end of the
left spine. -/
def get_first (t : RBTree K V) : Option (K × V) :=
  (inorder t.root).head?

/-- Operation `get_last` (lines 629-635). -/
def get_last (t : RBTree K V) : Option (K × V) :=
  (inorder t.root).getLast?

/-- Operation `contains_key` (lines 687-693). -/
def contains_key (t : RBTree K V) (k : K) : Bool :=
  (find_node t.root k).isSome

/-- Operation `remove` (lines 715-721): length is decremented exactly when
a node was found and unlinked (line 780). -/
def remove (t : RBTree K V) (k : K) : RBTree K V × Option V :=
  match remove_go t.root [] k with
  | none => (t, none)
  | some (r, v) => (⟨r, t.len - 1⟩, some v)

/-- Operation `pop_first` (lines 637-643). -/
def pop_first (t : RBTree K V) : Option ((K × V) × RBTree K V) :=
  match pop_first_go t.root [] with
  | none => none
  | some (r, k, v) => some ((k, v), ⟨r, t.len - 1⟩)

/-- Operation `pop_last` (lines 645-651). -/
def pop_last (t : RBTree K V) : Option ((K × V) × RBTree K V) :=
  match pop_last_go t.root [] with
  | none => none
  | some (r, k, v) => some ((k, v), ⟨r, t.len - 1⟩)

/-- Operation `find_less_equal` (lines 575-595). -/
def find_less_equal (t : RBTree K V) (k : K) : Option (K × V) × Bool :=
  find_less_equal_go t.root none k

/-- Operation `index` (the `Index` impl, lines 107-116):
`self.get(index).expect(..)`; an absent result means the call panics. -/
def indexAt (t : RBTree K V) (k : K) : Option V :=
  t.get k

/-- Operation `extend` (lines 126-133): insert every pair in order. -/
def extendList (t : RBTree K V) (l : List (K × V)) : RBTree K V :=
  l.foldl (fun acc p => (acc.insert p.1 p.2).1) t

/-- Operation `from_iter` (lines 118-124): `new` plus `extend`. -/
def fromList (l : List (K × V)) : RBTree K V :=
  extendList new l

/-- Structural equality `eq` (the `PartialEq` impl, lines 85-98): equal
lengths, and every entry of the left tree is found in the right tree with
an equal value. -/
def eqB [DecidableEq V] (a b : RBTree K V) : Bool :=
  if a.len ≠ b.len then false
  else (inorder a.root).all fun p =>
    match b.get p.1 with
    | some v => v = p.2
    | none => false

end RBTree

/-- Shared-reference cursor `Iter` (rbtree.rs lines 281-297): a head
pointer, a tail pointer and a remaining count.  Node pointers are
represented by the node's position in the in-order sequence that the
cursor was created over; `none` is a null pointer.  `head.next()` and
`tail.prev()` (the in-order successor and predecessor walks of `rbnode`)
become successor and predecessor positions, falling off to null at the
ends. -/
structure Iter (K V : Type) : Type where
  entries : List (K × V)
  head : Option Nat
  tail : Option Nat
  len : Nat
deriving DecidableEq, Repr

namespace Iter

/-- In-order successor position (`NodePtr::next`). -/
def succPos (entries : List (K × V)) : Option Nat → Option Nat
  | none => none
  | some i => if i + 1 < entries.length then some (i + 1) else none

/-- In-order predecessor position (`NodePtr::prev`). -/
def predPos : Option Nat → Option Nat
  | none => none
  | some i => if i = 0 then none else some (i - 1)

/-- Iterator step `next` (rbtree.rs lines 302-315): empty count or a null
head ends the sequence; otherwise yield the head entry and advance the
head to its in-order successor. -/
def next (it : Iter K V) : Option ((K × V) × Iter K V) :=
  if it.len = 0 then none
  else if it.head = none then none
  else match it.head with
    | some i =>
      match it.entries[i]? with
      | some p =>
        some (p, { it with head := succPos it.entries it.head, len := it.len - 1 })
      | none => none
    | none => none

/-- Iterator step `next_back` (rbtree.rs lines 322-337): empty count ends
the sequence; the source then compares `self.tail == self.head` (pointer
equality) and ends the sequence when they coincide; otherwise it yields the
tail entry and moves the tail to its in-order predecessor. -/
def nextBack (it : Iter K V) : Option ((K × V) × Iter K V) :=
  if it.len = 0 then none
  else if it.tail = it.head then none
  else match it.tail with
    | some i =>
      match it.entries[i]? with
      | some p =>
        some (p, { it with tail := predPos it.tail, len := it.len - 1 })
      | none => none
    | none => none

/-- Iterator `size_hint` (rbtree.rs lines 317-319): both bounds are the
remaining count. -/
def sizeHint (it : Iter K V) : Nat × Option Nat :=
  (it.len, some it.len)

end Iter

/-- Cursor constructor `iter` (rbtree.rs lines 855-862): head at
`first_child` (null only on the empty tree), tail at `last_child`, count
from the stored length. -/
def RBTree.iter (t : RBTree K V) : Iter K V :=
  { entries := inorder t.root
    head := if (inorder t.root).length = 0 then none else some 0
    tail := if (inorder t.root).length = 0 then none
            else some ((inorder t.root).length - 1)
    len := t.len }

section Checkers

variable [LinearOrder K]

/-- Invariant 6/1 of spec section 3: the root is black or absent. -/
def rootBlackB (t : Tree K V) : Bool := isBlackB t

/-- Invariant 2 of spec section 3: no red node has a red child. -/
def redOkB : Tree K V → Bool
  | .nil => true
  | .node c l _ _ r =>
    (c = Color.black || (isBlackB l && isBlackB r)) && redOkB l && redOkB r

/-- Black height of a subtree, or `none` when some pair of root-to-absent
paths disagree (invariant 3 of spec section 3 holds iff this is defined). -/
def blackHeight : Tree K V → Option Nat
  | .nil => some 0
  | .node c l _ _ r =>
    match blackHeight l, blackHeight r with
    | some hl, some hr =>
      if hl = hr then some (hl + (if c = Color.black then 1 else 0)) else none
    | _, _ => none

/-- Strict ascending check on a key sequence (invariant 4 of spec section
3: in-order traversal yields strictly ascending keys). -/
def strictAscB : List K → Bool
  | [] => true
  | [_] => true
  | a :: b :: rest => (a < b : Bool) && strictAscB (b :: rest)

/-- Conjunction of the red-black structural invariants of spec sections 3
and 8 on a container value: black or absent root, no red-red edge, equal
black count on every root-to-absent path, strictly ascending in-order
keys, and stored length equal to the number of reachable nodes.  (The
sixth invariant of the spec, consistency of parent back-links, is
intrinsic to this embedding: a subtree occurs in exactly the child slot of
the node that owns it.) -/
def validB (t : RBTree K V) : Bool :=
  rootBlackB t.root && redOkB t.root && (blackHeight t.root).isSome &&
    strictAscB (keyList t.root) && (t.len = (inorder t.root).length : Bool)

end Checkers

/-- One public mutating operation of the container. -/
inductive Op (K V : Type) : Type
  | ins (k : K) (v : V)
  | del (k : K)

/-- Run a sequence of public operations starting from the empty container
(spec section 8, randomized sequences of inserts and removes). -/
def runOps [LinearOrder K] (ops : List (Op K V)) : RBTree K V :=
  ops.foldl
    (fun t op => match op with
      | .ins k v => (t.insert k v).1
      | .del k => (t.remove k).1)
    RBTree.new

/-! Inductive forms of the structural invariants, used by the proofs and
related below to the executable checkers. -/

/-- Black-height balance: `Bal t h` states that every path from the root
of `t` to an absent link passes through exactly `h` black nodes
(invariant 3 of spec section 3). -/
inductive Bal : Tree K V → Nat → Prop
  | nil : Bal .nil 0
  | red {l r : Tree K V} {k : K} {v : V} {h : Nat} :
      Bal l h → Bal r h → Bal (.node Color.red l k v r) h
  | black {l r : Tree K V} {k : K} {v : V} {h : Nat} :
      Bal l h → Bal r h → Bal (.node Color.black l k v r) (h + 1)

/-- Red rule: no red node has a red child (invariant 2 of spec section 3). -/
inductive RedOk : Tree K V → Prop
  | nil : RedOk .nil
  | red {l r : Tree K V} {k : K} {v : V} :
      RedOk l → RedOk r → isBlackB l = true → isBlackB r = true →
      RedOk (.node Color.red l k v r)
  | black {l r : Tree K V} {k : K} {v : V} :
      RedOk l → RedOk r → RedOk (.node Color.black l k v r)

/-- Search-tree order (invariant 4 of spec section 3). -/
inductive Ordered [LinearOrder K] : Tree K V → Prop
  | nil : Ordered .nil
  | node {c : Color} {l r : Tree K V} {x : K} {y : V} :
      Ordered l → Ordered r →
      (∀ p ∈ inorder l, p.1 < x) → (∀ q ∈ inorder r, x < q.1) →
      Ordered (.node c l x y r)

/-- Children of the root satisfy the red rule; the root's own color is
unconstrained.  This is the state of a node whose root `set_black_color`
is about to run. -/
def Almost : Tree K V → Prop
  | .nil => True
  | .node _ l _ _ r => RedOk l ∧ RedOk r

theorem RedOk.almost {t : Tree K V} (h : RedOk t) : Almost t := by
  cases h <;> simp_all [Almost]

theorem redOk_setBlack {t : Tree K V} (h : Almost t) : RedOk (setBlack t) := by
  cases t with
  | nil => exact RedOk.nil
  | node c l k v r => exact RedOk.black h.1 h.2

theorem isBlackB_setBlack (t : Tree K V) :
    isBlackB (setBlack t) = true := by
  cases t <;> simp [setBlack, isBlackB]

theorem bal_setBlack {t : Tree K V} {h : Nat} (hb : Bal t h) :
    ∃ h', Bal (setBlack t) h' := by
  cases hb with
  | nil => exact ⟨0, Bal.nil⟩
  | red hl hr => exact ⟨_, Bal.black hl hr⟩
  | black hl hr => exact ⟨_, Bal.black hl hr⟩

theorem inorder_setBlack (t : Tree K V) :
    inorder (setBlack t) = inorder t := by
  cases t <;> simp [setBlack, inorder]

theorem inorder_setRed (t : Tree K V) :
    inorder (setRed t) = inorder t := by
  cases t <;> simp [setRed, inorder]

theorem blackHeight_iff_bal {t : Tree K V} {h : Nat} :
    blackHeight t = some h ↔ Bal t h := by
  induction t generalizing h with
  | nil =>
    simp only [blackHeight, Option.some_inj]
    constructor
    · rintro rfl; exact Bal.nil
    · rintro ⟨⟩; rfl
  | node c l k v r ihl ihr =>
    constructor
    · intro he
      simp only [blackHeight] at he
      rcases hbl : blackHeight l with _ | hl <;> rw [hbl] at he <;>
        rcases hbr : blackHeight r with _ | hr <;> rw [hbr] at he <;>
        simp at he
      rcases he with ⟨rfl, he⟩
      cases c with
      | red =>
        simp at he
        subst he
        exact Bal.red (ihl.mp hbl) (ihr.mp hbr)
      | black =>
        simp at he
        subst he
        exact Bal.black (ihl.mp hbl) (ihr.mp hbr)
    · intro hb
      cases hb with
      | red hl hr =>
        simp [blackHeight, ihl.mpr hl, ihr.mpr hr]
      | black hl hr =>
        simp [blackHeight, ihl.mpr hl, ihr.mpr hr]

theorem redOkB_iff {t : Tree K V} : redOkB t = true ↔ RedOk t := by
  induction t with
  | nil =>
    simp only [redOkB, true_iff]
    exact RedOk.nil
  | node c l k v r ihl ihr =>
    cases c with
    | red =>
      simp only [redOkB, Bool.and_eq_true, Bool.or_eq_true]
      constructor
      · rintro ⟨⟨hc, hl⟩, hr⟩
        rcases hc with hc | ⟨hbl, hbr⟩
        · exact absurd hc (by simp)
        · exact RedOk.red (ihl.mp hl) (ihr.mp hr) hbl hbr
      · rintro (_ | ⟨hl, hr, hbl, hbr⟩ | _)
        exact ⟨⟨Or.inr (by simp [hbl, hbr]), ihl.mpr hl⟩, ihr.mpr hr⟩
    | black =>
      simp only [redOkB, Bool.and_eq_true, Bool.or_eq_true]
      constructor
      · rintro ⟨⟨_, hl⟩, hr⟩
        exact RedOk.black (ihl.mp hl) (ihr.mp hr)
      · rintro (_ | _ | ⟨hl, hr⟩)
        exact ⟨⟨Or.inl rfl, ihl.mpr hl⟩, ihr.mpr hr⟩

theorem strictAscB_iff_chain [LinearOrder K] {l : List K} :
    strictAscB l = true ↔ l.Chain' (· < ·) := by
  induction l with
  | nil => simp [strictAscB]
  | cons a l ih =>
    cases l with
    | nil => simp [strictAscB]
    | cons b l =>
      simp only [strictAscB, Bool.and_eq_true, decide_eq_true_eq,
        List.chain'_cons] at ih ⊢
      exact and_congr Iff.rfl ih

theorem ordered_iff_pairwise [LinearOrder K] {t : Tree K V} :
    Ordered t ↔ (inorder t).Pairwise (fun p q => p.1 < q.1) := by
  induction t with
  | nil => simp [inorder]; exact Ordered.nil
  | node c l x y r ihl ihr =>
    simp only [inorder]
    constructor
    · intro ho
      cases ho with
      | node hol hor hlx hxr =>
        refine List.pairwise_append.mpr
          ⟨ihl.mp hol, List.pairwise_cons.mpr ⟨hxr, ihr.mp hor⟩, ?_⟩
        intro p hp q hq
        rcases List.mem_cons.mp hq with rfl | hq'
        · exact hlx p hp
        · exact lt_trans (hlx p hp) (hxr q hq')
    · intro hpw
      rw [List.pairwise_append] at hpw
      obtain ⟨hpl, hpc, hcross⟩ := hpw
      rw [List.pairwise_cons] at hpc
      exact Ordered.node (ihl.mpr hpl) (ihr.mpr hpc.2)
        (fun p hp => hcross p hp (x, y) (List.mem_cons_self _ _)) hpc.1

theorem strictAsc_keyList_iff [LinearOrder K] {t : Tree K V} :
    strictAscB (keyList t) = true ↔
      (inorder t).Pairwise (fun p q => p.1 < q.1) := by
  rw [strictAscB_iff_chain, keyList, List.chain'_iff_pairwise,
    List.pairwise_map]

theorem ordered_iff_strictAsc [LinearOrder K] {t : Tree K V} :
    Ordered t ↔ strictAscB (keyList t) = true := by
  rw [strictAsc_keyList_iff, ordered_iff_pairwise]

/-! Context machinery: rebuilding a tree around a subtree, and the
well-formedness of a parent chain. -/

/-- Effect of `plug` on the in-order sequence: each parent link wraps the
sequence of the subtree with the parent entry and the sibling sequence on
the appropriate side. -/
def inorderP : Path K V → List (K × V) → List (K × V)
  | [], xs => xs
  | st :: rest, xs =>
    inorderP rest
      (match st.dir with
        | .left => xs ++ (st.key, st.value) :: inorder st.sibling
        | .right => inorder st.sibling ++ (st.key, st.value) :: xs)

theorem inorder_plug (t : Tree K V) (p : Path K V) :
    inorder (plug t p) = inorderP p (inorder t) := by
  induction p generalizing t with
  | nil => rfl
  | cons st rest ih =>
    cases hd : st.dir <;>
      simp [plug, inorderP, ih, stepTree, hd, inorder]

theorem inorderP_congr {xs ys : List (K × V)} (p : Path K V)
    (h : xs = ys) : inorderP p xs = inorderP p ys := by rw [h]

theorem plug_append (t : Tree K V) (p q : Path K V) :
    plug t (p ++ q) = plug (plug t p) q := by
  induction p generalizing t with
  | nil => rfl
  | cons st rest ih => simp [plug, ih]

/-- Color of the parent closest to the hole (black when the hole is the
root). -/
def headColor : Path K V → Color
  | [] => Color.black
  | st :: _ => st.color

/-- Well-formed parent chain around a hole expecting a subtree of black
height `h`: every sibling is a valid red-black subtree of matching black
height, every red parent link sits below a black one (so in particular the
outermost link, the tree root, is black), and the sibling of a hole under
a red parent has a black root. -/
inductive PathInv : Path K V → Nat → Prop
  | nil {h : Nat} : PathInv [] h
  | consBlack {d : Dir} {k : K} {v : V} {sib : Tree K V} {rest : Path K V}
      {h : Nat} :
      PathInv rest (h + 1) → RedOk sib → Bal sib h →
      PathInv (⟨d, Color.black, k, v, sib⟩ :: rest) h
  | consRed {d : Dir} {k : K} {v : V} {sib : Tree K V} {rest : Path K V}
      {h : Nat} :
      PathInv rest h → RedOk sib → Bal sib h → isBlackB sib = true →
      headColor rest = Color.black → rest ≠ [] →
      PathInv (⟨d, Color.red, k, v, sib⟩ :: rest) h

/-- Plugging a valid red-black subtree of the expected black height into a
well-formed context yields a tree satisfying the color and height
invariants; a red subtree is only allowed below a black parent link. -/
theorem plug_valid {p : Path K V} {h : Nat} {n : Tree K V}
    (hp : PathInv p h) (hbal : Bal n h) (hred : RedOk n)
    (hcomp : headColor p = Color.red → isBlackB n = true) :
    RedOk (plug n p) ∧ (∃ H, Bal (plug n p) H) ∧
      (p ≠ [] → isBlackB (plug n p) = true) := by
  induction hp generalizing n with
  | nil => exact ⟨hred, ⟨_, hbal⟩, fun hne => absurd rfl hne⟩
  | @consBlack d k v sib rest h hrest hsred hsbal ih =>
    have hred' : RedOk (stepTree n ⟨d, Color.black, k, v, sib⟩) := by
      cases d with
      | left => exact RedOk.black hred hsred
      | right => exact RedOk.black hsred hred
    have hbal' : Bal (stepTree n ⟨d, Color.black, k, v, sib⟩) (h + 1) := by
      cases d with
      | left => exact Bal.black hbal hsbal
      | right => exact Bal.black hsbal hbal
    have := ih hbal' hred' (fun _ => by cases d <;> simp [stepTree, isBlackB])
    refine ⟨this.1, this.2.1, fun _ => ?_⟩
    cases hre : rest with
    | nil =>
      subst hre
      simpa [plug] using (by cases d <;> simp [stepTree, isBlackB] :
        isBlackB (stepTree n ⟨d, Color.black, k, v, sib⟩) = true)
    | cons a b =>
      subst hre
      exact this.2.2 (by simp)
  | @consRed d k v sib rest h hrest hsred hsbal hsb hhc hne ih =>
    have hnb : isBlackB n = true := hcomp rfl
    have hred' : RedOk (stepTree n ⟨d, Color.red, k, v, sib⟩) := by
      cases d with
      | left => exact RedOk.red hred hsred hnb hsb
      | right => exact RedOk.red hsred hred hsb hnb
    have hbal' : Bal (stepTree n ⟨d, Color.red, k, v, sib⟩) h := by
      cases d with
      | left => exact Bal.red hbal hsbal
      | right => exact Bal.red hsbal hbal
    have := ih hbal' hred' (fun hrc => absurd (hhc ▸ hrc) (by simp))
    exact ⟨this.1, this.2.1, fun _ => this.2.2 hne⟩

/-! Lemmas for `insert_fixup`: it permutes no entries (recoloring and
rotations preserve the in-order sequence) and restores the red-black
invariants from a red current node in a well-formed context. -/

theorem inorder_insert_fixup (n : Tree K V) (p : Path K V)
    (hn : n ≠ .nil) :
    inorder (insert_fixup n p) = inorder (plug n p) := by
  induction n, p using insert_fixup.induct with
  | case1 n => simp [insert_fixup, inorder_setBlack, plug]
  | case2 n p1 => simp [insert_fixup, inorder_setBlack]
  | case3 n p1 p2 rest hb => simp [insert_fixup, hb, inorder_setBlack]
  | case4 n p1 p2 rest hb hu ih =>
    rw [insert_fixup, if_neg hb, if_pos hu]
    rw [ih (by cases p1.dir <;> cases p2.dir <;> simp [stepTree]),
      inorder_plug,
      show plug n (p1 :: p2 :: rest) = plug (stepTree (stepTree n p1) p2) rest
        from rfl,
      inorder_plug]
    refine inorderP_congr rest ?_
    cases hd1 : p1.dir <;> cases hd2 : p2.dir <;>
      simp [stepTree, inorder, hd1, hd2, inorder_setBlack]
  | case5 n p1 p2 rest hb hu =>
    rw [insert_fixup, if_neg hb, if_neg hu]
    rw [inorder_setBlack, inorder_plug,
      show plug n (p1 :: p2 :: rest) = plug (stepTree (stepTree n p1) p2) rest
        from rfl,
      inorder_plug]
    refine inorderP_congr rest ?_
    rcases n with _ | ⟨cn, a, kn, vn, b⟩
    · exact absurd rfl hn
    · cases hd1 : p1.dir <;> cases hd2 : p2.dir <;>
        simp [insert_rotate, stepTree, inorder, hd1, hd2]

theorem isBlackB_not_red {t : Tree K V} (h : isRedB t = false) :
    isBlackB t = true := by
  rcases t with _ | ⟨c, _, _, _, _⟩
  · rfl
  · cases c with
    | red => simp [isRedB] at h
    | black => rfl

/-- Correctness of `insert_fixup`: from a red current node that is itself
a valid red-black subtree of the black height its slot expects, in a
well-formed context, the repaired tree satisfies the red rule, has a
consistent black height, and has a black root. -/
theorem insert_fixup_valid :
    ∀ (n : Tree K V) (p : Path K V) (h : Nat),
      isRedB n = true → Bal n h → RedOk n → PathInv p h →
      RedOk (insert_fixup n p) ∧ (∃ H, Bal (insert_fixup n p) H) ∧
        isBlackB (insert_fixup n p) = true := by
  intro n p
  induction n, p using insert_fixup.induct with
  | case1 n =>
    intro h _ hbal hred _
    exact ⟨redOk_setBlack hred.almost, bal_setBlack hbal,
      isBlackB_setBlack n⟩
  | case2 n p1 =>
    intro h _ hbal hred hp
    obtain ⟨d1, c1, k1, v1, s1⟩ := p1
    cases hp with
    | consBlack hrest hsred hsbal =>
      have hplug : plug n [(⟨d1, Color.black, k1, v1, s1⟩ : PathStep K V)] =
          stepTree n ⟨d1, Color.black, k1, v1, s1⟩ := rfl
      rw [insert_fixup, hplug]
      have hro : RedOk (stepTree n (⟨d1, Color.black, k1, v1, s1⟩ :
          PathStep K V)) := by
        cases d1 with
        | left => exact RedOk.black hred hsred
        | right => exact RedOk.black hsred hred
      have hbo : Bal (stepTree n (⟨d1, Color.black, k1, v1, s1⟩ :
          PathStep K V)) (h + 1) := by
        cases d1 with
        | left => exact Bal.black hbal hsbal
        | right => exact Bal.black hsbal hbal
      exact ⟨redOk_setBlack hro.almost, bal_setBlack hbo,
        isBlackB_setBlack _⟩
    | consRed _ _ _ _ _ hne => exact absurd rfl hne
  | case3 n p1 p2 rest hb =>
    intro h _ hbal hred hp
    rw [insert_fixup, if_pos hb]
    have := plug_valid hp hbal hred
      (fun hc => by rw [headColor, hb] at hc; cases hc)
    exact ⟨redOk_setBlack this.1.almost, bal_setBlack this.2.1.choose_spec,
      isBlackB_setBlack _⟩
  | case4 n p1 p2 rest hb hu ih =>
    intro h hn hbal hred hp
    rw [insert_fixup, if_neg hb, if_pos hu]
    obtain ⟨d1, c1, k1, v1, s1⟩ := p1
    obtain ⟨d2, c2, k2, v2, u⟩ := p2
    cases hp with
    | consBlack hrest hsred hsbal =>
      exact absurd rfl hb
    | consRed hrest hsred hsbal hsb hhc hne =>
      cases hrest with
      | consBlack hrest2 hured hubal =>
        simp only [isRedB] at hu
        rcases hup : u with _ | ⟨cu, ul, ku, vu, ur⟩
        · rw [hup] at hu; simp [isRedB] at hu
        · subst hup
          cases cu with
          | black => simp [isRedB] at hu
          | red =>
            cases hubal with
            | red hul hur =>
              cases hured with
              | red hulo huro hulb hurb =>
                have hP : RedOk (stepTree n (⟨d1, Color.black, k1, v1, s1⟩ :
                    PathStep K V)) := by
                  cases d1 with
                  | left => exact RedOk.black hred hsred
                  | right => exact RedOk.black hsred hred
                have hPb : Bal (stepTree n (⟨d1, Color.black, k1, v1, s1⟩ :
                    PathStep K V)) (h + 1) := by
                  cases d1 with
                  | left => exact Bal.black hbal hsbal
                  | right => exact Bal.black hsbal hbal
                have hPblack : isBlackB (stepTree n
                    (⟨d1, Color.black, k1, v1, s1⟩ : PathStep K V)) = true := by
                  cases d1 <;> rfl
                have hG : RedOk (stepTree
                    (stepTree n ⟨d1, Color.black, k1, v1, s1⟩)
                    (⟨d2, Color.red, k2, v2,
                      setBlack (.node Color.red ul ku vu ur)⟩ :
                      PathStep K V)) := by
                  cases d2 with
                  | left =>
                    exact RedOk.red hP (RedOk.black hulo huro) hPblack
                      (isBlackB_setBlack (.node Color.red ul ku vu ur))
                  | right =>
                    exact RedOk.red (RedOk.black hulo huro) hP
                      (isBlackB_setBlack (.node Color.red ul ku vu ur)) hPblack
                have hGb : Bal (stepTree
                    (stepTree n ⟨d1, Color.black, k1, v1, s1⟩)
                    (⟨d2, Color.red, k2, v2,
                      setBlack (.node Color.red ul ku vu ur)⟩ :
                      PathStep K V)) (h + 1) := by
                  cases d2 with
                  | left => exact Bal.red hPb (Bal.black hul hur)
                  | right => exact Bal.red (Bal.black hul hur) hPb
                have hGred : isRedB (stepTree
                    (stepTree n ⟨d1, Color.black, k1, v1, s1⟩)
                    (⟨d2, Color.red, k2, v2,
                      setBlack (.node Color.red ul ku vu ur)⟩ :
                      PathStep K V)) = true := by
                  cases d2 <;> rfl
                exact ih (h + 1) hGred hGb hG hrest2
      | consRed _ _ _ _ _ _ =>
        exact absurd hhc (by simp [headColor])
  | case5 n p1 p2 rest hb hu =>
    intro h hn hbal hred hp
    rw [insert_fixup, if_neg hb, if_neg hu]
    obtain ⟨d1, c1, k1, v1, s1⟩ := p1
    obtain ⟨d2, c2, k2, v2, u⟩ := p2
    rcases n with _ | ⟨cn, a, kn, vn, b⟩
    · simp [isRedB] at hn
    cases cn with
    | black => simp [isRedB] at hn
    | red =>
    cases hp with
    | consBlack hrest hsred hsbal => exact absurd rfl hb
    | consRed hrest hsred hsbal hsb hhc hne =>
      cases hrest with
      | consRed _ _ _ _ _ _ => exact absurd hhc (by simp [headColor])
      | consBlack hrest2 hured hubal =>
        have hub : isBlackB u = true :=
          isBlackB_not_red (by simpa using hu)
        cases hbal with
        | red hba hbb =>
        cases hred with
        | red hra hrb hab hbb' =>
          have key : RedOk (insert_rotate (.node Color.red a kn vn b)
                ⟨d1, Color.red, k1, v1, s1⟩ ⟨d2, Color.black, k2, v2, u⟩) ∧
              Bal (insert_rotate (.node Color.red a kn vn b)
                ⟨d1, Color.red, k1, v1, s1⟩ ⟨d2, Color.black, k2, v2, u⟩) (h + 1) ∧
              isBlackB (insert_rotate (.node Color.red a kn vn b)
                ⟨d1, Color.red, k1, v1, s1⟩ ⟨d2, Color.black, k2, v2, u⟩) = true := by
            cases d1 with
            | left =>
              cases d2 with
              | left =>
                refine ⟨RedOk.black (RedOk.red hra hrb hab hbb')
                  (RedOk.red hsred hured hsb hub), ?_, rfl⟩
                exact Bal.black (Bal.red hba hbb) (Bal.red hsbal hubal)
              | right =>
                refine ⟨RedOk.black (RedOk.red hured hra hub hab)
                  (RedOk.red hrb hsred hbb' hsb), ?_, rfl⟩
                exact Bal.black (Bal.red hubal hba) (Bal.red hbb hsbal)
            | right =>
              cases d2 with
              | left =>
                refine ⟨RedOk.black (RedOk.red hsred hra hsb hab)
                  (RedOk.red hrb hured hbb' hub), ?_, rfl⟩
                exact Bal.black (Bal.red hsbal hba) (Bal.red hbb hubal)
              | right =>
                refine ⟨RedOk.black (RedOk.red hured hsred hub hsb)
                  (RedOk.red hra hrb hab hbb'), ?_, rfl⟩
                exact Bal.black (Bal.red hubal hsbal) (Bal.red hba hbb)
          have := plug_valid hrest2 key.2.1 key.1
            (fun _ => key.2.2)
          exact ⟨redOk_setBlack this.1.almost,
            bal_setBlack this.2.1.choose_spec, isBlackB_setBlack _⟩

/-! List-level specifications of the descent loops, and the lemmas
connecting the search to the in-order sequence. -/

section Lists

variable [LinearOrder K]

theorem cmp_lt_iff {a b : K} : cmp a b = .lt ↔ a < b := by
  unfold cmp
  split
  · simp_all
  · split <;> simp_all

theorem cmp_gt_iff {a b : K} : cmp a b = .gt ↔ b < a := by
  unfold cmp
  split
  · rename_i h
    simp only [reduceCtorEq, false_iff]
    exact lt_asymm h
  · split
    · rename_i h1 h2
      simp [h2]
    · rename_i h1 h2
      simp only [reduceCtorEq, false_iff]
      exact h2

theorem cmp_eq_iff {a b : K} : cmp a b = .eq ↔ a = b := by
  unfold cmp
  split
  · rename_i h
    simp only [reduceCtorEq, false_iff]
    exact ne_of_lt h
  · split
    · rename_i h1 h2
      simp only [reduceCtorEq, false_iff]
      exact ne_of_gt h2
    · rename_i h1 h2
      simp only [true_iff]
      exact le_antisymm (not_lt.mp h2) (not_lt.mp h1)

/-- Value-level insertion into an entry sequence, the in-order effect of
the descent of `insert` (replace on an equal key, splice otherwise). -/
def listInsert (k : K) (v : V) : List (K × V) → List (K × V)
  | [] => [(k, v)]
  | (a, b) :: t =>
    match cmp k a with
    | .lt => (k, v) :: (a, b) :: t
    | .eq => (a, v) :: t
    | .gt => (a, b) :: listInsert k v t

theorem listInsert_append_lt {k : K} {v : V} {x : K} {y : V}
    (A B : List (K × V)) (hk : cmp k x = .lt) :
    listInsert k v (A ++ (x, y) :: B) = listInsert k v A ++ (x, y) :: B := by
  induction A with
  | nil => simp [listInsert, hk]
  | cons p A ih =>
    obtain ⟨a, b⟩ := p
    cases hc : cmp k a <;> simp [listInsert, hc, ih]

theorem listInsert_append_eq {k : K} {v : V} {x : K} {y : V}
    (A B : List (K × V)) (hk : cmp k x = .eq)
    (hA : ∀ p ∈ A, p.1 < x) :
    listInsert k v (A ++ (x, y) :: B) = A ++ (x, v) :: B := by
  induction A with
  | nil => simp [listInsert, hk]
  | cons p A ih =>
    obtain ⟨a, b⟩ := p
    have ha : a < x := hA (a, b) (List.mem_cons_self _ _)
    have hc : cmp k a = .gt := cmp_gt_iff.mpr (cmp_eq_iff.mp hk ▸ ha)
    simp only [List.cons_append, listInsert, hc]
    exact congrArg _ (ih (fun p hp => hA p (List.mem_cons_of_mem _ hp)))

theorem listInsert_append_gt {k : K} {v : V} {x : K} {y : V}
    (A B : List (K × V)) (hk : cmp k x = .gt)
    (hA : ∀ p ∈ A, p.1 < x) :
    listInsert k v (A ++ (x, y) :: B) = A ++ (x, y) :: listInsert k v B := by
  induction A with
  | nil => simp [listInsert, hk]
  | cons p A ih =>
    obtain ⟨a, b⟩ := p
    have ha : a < x := hA (a, b) (List.mem_cons_self _ _)
    have hc : cmp k a = .gt := cmp_gt_iff.mpr (lt_trans ha (cmp_gt_iff.mp hk))
    simp only [List.cons_append, listInsert, hc]
    exact congrArg _ (ih (fun p hp => hA p (List.mem_cons_of_mem _ hp)))

theorem listInsert_keys_sub {k : K} {v : V} {l : List (K × V)} :
    ∀ p ∈ listInsert k v l, p.1 = k ∨ p.1 ∈ l.map Prod.fst := by
  induction l with
  | nil =>
    intro p hp
    simp [listInsert] at hp
    simp [hp]
  | cons q l ih =>
    obtain ⟨a, b⟩ := q
    intro p hp
    cases hc : cmp k a <;> rw [listInsert, hc] at hp
    · rcases List.mem_cons.mp hp with rfl | hp'
      · exact Or.inl rfl
      · exact Or.inr (List.mem_map_of_mem Prod.fst hp')
    · rcases List.mem_cons.mp hp with rfl | hp'
      · exact Or.inr (by simp)
      · exact Or.inr (by
          rw [List.map_cons]
          exact List.mem_cons_of_mem _ (List.mem_map_of_mem Prod.fst hp'))
    · rcases List.mem_cons.mp hp with rfl | hp'
      · exact Or.inr (by simp)
      · rcases ih p hp' with h | h
        · exact Or.inl h
        · exact Or.inr (by
            rw [List.map_cons]
            exact List.mem_cons_of_mem _ h)

theorem listInsert_sorted {k : K} {v : V} {l : List (K × V)}
    (hs : l.Pairwise (fun p q => p.1 < q.1)) :
    (listInsert k v l).Pairwise (fun p q => p.1 < q.1) := by
  induction l with
  | nil => simp [listInsert]
  | cons q l ih =>
    obtain ⟨a, b⟩ := q
    rw [List.pairwise_cons] at hs
    cases hc : cmp k a <;> rw [listInsert, hc]
    · rw [List.pairwise_cons]
      refine ⟨?_, List.pairwise_cons.mpr hs⟩
      intro p hp
      rcases List.mem_cons.mp hp with rfl | hp'
      · exact cmp_lt_iff.mp hc
      · exact lt_trans (cmp_lt_iff.mp hc) (hs.1 p hp')
    · exact List.pairwise_cons.mpr hs
    · rw [List.pairwise_cons]
      refine ⟨?_, ih hs.2⟩
      intro p hp
      rcases listInsert_keys_sub p hp with h | h
      · rw [h]; exact cmp_gt_iff.mp hc
      · rw [List.mem_map] at h
        obtain ⟨q, hq, hqe⟩ := h
        exact hqe ▸ hs.1 q hq

theorem listInsert_length_mem {k : K} {v : V} {l : List (K × V)}
    (hs : l.Pairwise (fun p q => p.1 < q.1)) (hm : k ∈ l.map Prod.fst) :
    (listInsert k v l).length = l.length := by
  induction l with
  | nil => simp at hm
  | cons q l ih =>
    obtain ⟨a, b⟩ := q
    rw [List.pairwise_cons] at hs
    rcases (by simpa using hm : k = a ∨ ∃ w, (k, w) ∈ l) with rfl | ⟨w, hw⟩
    · rw [listInsert, cmp_eq_iff.mpr rfl]
      rfl
    · have hm' : k ∈ l.map Prod.fst := List.mem_map_of_mem Prod.fst hw
      cases hc : cmp k a <;> rw [listInsert, hc]
      · exact absurd (hs.1 (k, w) hw) (not_lt_of_lt (cmp_lt_iff.mp hc))
      · rfl
      · simp [ih hs.2 hm']

theorem listInsert_length_not_mem {k : K} {v : V} {l : List (K × V)}
    (hm : k ∉ l.map Prod.fst) :
    (listInsert k v l).length = l.length + 1 := by
  induction l with
  | nil => simp [listInsert]
  | cons q l ih =>
    obtain ⟨a, b⟩ := q
    cases hc : cmp k a <;> rw [listInsert, hc]
    · simp
    · exact absurd (by simp [cmp_eq_iff.mp hc]) hm
    · simp only [List.length_cons]
      rw [ih (fun hcon => hm (by simp_all))]

theorem listInsert_mem_self {k : K} {v : V} {l : List (K × V)}
    (hs : l.Pairwise (fun p q => p.1 < q.1)) :
    (k, v) ∈ listInsert k v l := by
  induction l with
  | nil => simp [listInsert]
  | cons q l ih =>
    obtain ⟨a, b⟩ := q
    rw [List.pairwise_cons] at hs
    cases hc : cmp k a <;> rw [listInsert, hc]
    · simp
    · simp [cmp_eq_iff.mp hc]
    · exact List.mem_cons_of_mem _ (ih hs.2)

end Lists

section Search

variable [LinearOrder K]

theorem isRedB_eq_false_of_black {t : Tree K V} (h : isBlackB t = true) :
    isRedB t = false := by
  rcases t with _ | ⟨c, _, _, _, _⟩
  · rfl
  · cases c
    · simp [isBlackB] at h
    · rfl

/-- The search loop finds exactly the in-order entry carrying the key. -/
theorem find_node_some_iff {t : Tree K V} {k : K} {p : K × V}
    (ho : Ordered t) :
    find_node t k = some p ↔ p ∈ inorder t ∧ p.1 = k := by
  induction t with
  | nil => simp [find_node, inorder]
  | node c l x y r ihl ihr =>
    cases ho with
    | node hol hor hlx hxr =>
      rw [find_node]
      cases hc : cmp k x
      · rw [ihl hol]
        simp only [inorder, List.mem_append, List.mem_cons]
        constructor
        · rintro ⟨hm, rfl⟩
          exact ⟨Or.inl hm, rfl⟩
        · rintro ⟨hm | (rfl | hm), hk⟩
          · exact ⟨hm, hk⟩
          · exact absurd (cmp_lt_iff.mp hc)
              (by rw [show x = k from hk]; exact lt_irrefl k)
          · exact absurd (lt_trans (cmp_lt_iff.mp hc) (hxr p hm))
              (by rw [hk]; exact lt_irrefl k)
      · rw [cmp_eq_iff] at hc
        subst hc
        simp only [inorder, List.mem_append, List.mem_cons,
          Option.some_inj]
        constructor
        · rintro rfl
          exact ⟨Or.inr (Or.inl rfl), rfl⟩
        · rintro ⟨hm | (rfl | hm), hk⟩
          · exact absurd (hlx p hm) (by rw [hk]; exact lt_irrefl k)
          · rfl
          · exact absurd (hxr p hm) (by rw [hk]; exact lt_irrefl k)
      · rw [ihr hor]
        simp only [inorder, List.mem_append, List.mem_cons]
        constructor
        · rintro ⟨hm, rfl⟩
          exact ⟨Or.inr (Or.inr hm), rfl⟩
        · rintro ⟨hm | (rfl | hm), hk⟩
          · exact absurd (lt_trans (hlx p hm) (cmp_gt_iff.mp hc))
              (by rw [hk]; exact lt_irrefl k)
          · exact absurd (cmp_gt_iff.mp hc)
              (by rw [show x = k from hk]; exact lt_irrefl k)
          · exact ⟨hm, hk⟩

theorem find_node_none_iff {t : Tree K V} {k : K} (ho : Ordered t) :
    find_node t k = none ↔ k ∉ keyList t := by
  constructor
  · intro hn hm
    rw [keyList, List.mem_map] at hm
    obtain ⟨p, hp, hpk⟩ := hm
    rw [(find_node_some_iff ho).mpr ⟨hp, hpk⟩] at hn
    cases hn
  · intro hm
    cases hf : find_node t k with
    | none => rfl
    | some p =>
      obtain ⟨hp, hpk⟩ := (find_node_some_iff ho).mp hf
      exact absurd (hpk ▸ List.mem_map_of_mem Prod.fst hp) hm

/-- The early-return value of the insert descent is exactly the value the
search loop finds. -/
theorem insert_go_snd (t : Tree K V) (path : Path K V) (k : K) (v : V) :
    (insert_go t path k v).2 = (find_node t k).map Prod.snd := by
  induction t generalizing path with
  | nil => simp [insert_go, find_node]
  | node c l x y r ihl ihr =>
    rw [insert_go, find_node]
    cases hc : cmp k x
    · exact ihl _
    · rfl
    · exact ihr _

/-- In-order effect of the insert descent: the entry sequence of the
rebuilt tree is the context applied to the list-level insertion. -/
theorem insert_go_inorder {t : Tree K V} (ho : Ordered t)
    (path : Path K V) (k : K) (v : V) :
    inorder ((insert_go t path k v).1) =
      inorderP path (listInsert k v (inorder t)) := by
  induction t generalizing path with
  | nil =>
    rw [insert_go]
    rw [inorder_insert_fixup _ _ (by simp), inorder_plug]
    rfl
  | node c l x y r ihl ihr =>
    cases ho with
    | node hol hor hlx hxr =>
      cases hc : cmp k x
      · rw [show insert_go (Tree.node c l x y r) path k v =
            insert_go l (⟨.left, c, x, y, r⟩ :: path) k v by
          rw [insert_go, hc]]
        rw [ihl hol]
        show inorderP path (listInsert k v (inorder l) ++ (x, y) :: inorder r)
          = _
        rw [inorder, listInsert_append_lt _ _ hc]
      · rw [show insert_go (Tree.node c l x y r) path k v =
            (plug (Tree.node c l x v r) path, some y) by
          rw [insert_go, hc]]
        rw [inorder_plug]
        show inorderP path (inorder l ++ (x, v) :: inorder r) = _
        rw [inorder, listInsert_append_eq _ _ hc hlx]
      · rw [show insert_go (Tree.node c l x y r) path k v =
            insert_go r (⟨.right, c, x, y, l⟩ :: path) k v by
          rw [insert_go, hc]]
        rw [ihr hor]
        show inorderP path (inorder l ++ (x, y) :: listInsert k v (inorder r))
          = _
        rw [inorder, listInsert_append_gt _ _ hc hlx]

/-- Invariant preservation along the insert descent: with a well-formed
context and a valid subtree, the rebuilt tree satisfies the red rule, has
a consistent black height, and a black root. -/
theorem insert_go_valid :
    ∀ (t : Tree K V) (path : Path K V) (h : Nat) (k : K) (v : V),
      Bal t h → RedOk t → PathInv path h →
      (isRedB t = true → headColor path = Color.black ∧ path ≠ []) →
      RedOk ((insert_go t path k v).1) ∧
        (∃ H, Bal ((insert_go t path k v).1) H) ∧
        isBlackB ((insert_go t path k v).1) = true := by
  intro t
  induction t with
  | nil =>
    intro path h k v hbal _ hp _
    cases hbal
    rw [insert_go]
    exact insert_fixup_valid _ _ 0 rfl (Bal.red Bal.nil Bal.nil)
      (RedOk.red RedOk.nil RedOk.nil rfl rfl) hp
  | node c l x y r ihl ihr =>
    intro path h k v hbal hred hp hcond
    rw [insert_go]
    cases hc : cmp k x
    · -- descend left
      cases c with
      | black =>
        cases hbal with
        | black hbl hbr =>
          cases hred with
          | black hrl hrr =>
            exact ihl _ _ k v hbl hrl
              (PathInv.consBlack hp hrr hbr)
              (fun _ => ⟨rfl, by simp⟩)
      | red =>
        cases hbal with
        | red hbl hbr =>
          cases hred with
          | red hrl hrr hbll hbrr =>
            have hcr := hcond rfl
            exact ihl _ _ k v hbl hrl
              (PathInv.consRed hp hrr hbr hbrr hcr.1 hcr.2)
              (fun hlr => absurd (isRedB_eq_false_of_black hbll)
                (by simp [hlr]))
    · -- equal key: replace the value in place
      have hbal' : Bal (Tree.node c l x v r) h := by
        cases hbal with
        | red hbl hbr => exact Bal.red hbl hbr
        | black hbl hbr => exact Bal.black hbl hbr
      have hred' : RedOk (Tree.node c l x v r) := by
        cases hred with
        | red hrl hrr hbl hbr => exact RedOk.red hrl hrr hbl hbr
        | black hrl hrr => exact RedOk.black hrl hrr
      have hcomp : headColor path = Color.red →
          isBlackB (Tree.node c l x v r) = true := by
        intro hrc
        cases c with
        | black => rfl
        | red => exact absurd (hcond rfl).1 (by simp [hrc])
      have := plug_valid hp hbal' hred' hcomp
      refine ⟨this.1, this.2.1, ?_⟩
      cases hpe : path with
      | nil =>
        subst hpe
        cases c with
        | black => exact rfl
        | red => exact absurd rfl (hcond rfl).2
      | cons a b =>
        subst hpe
        exact this.2.2 (by simp)
    · -- descend right
      cases c with
      | black =>
        cases hbal with
        | black hbl hbr =>
          cases hred with
          | black hrl hrr =>
            exact ihr _ _ k v hbr hrr
              (PathInv.consBlack hp hrl hbl)
              (fun _ => ⟨rfl, by simp⟩)
      | red =>
        cases hbal with
        | red hbl hbr =>
          cases hred with
          | red hrl hrr hbll hbrr =>
            have hcr := hcond rfl
            exact ihr _ _ k v hbr hrr
              (PathInv.consRed hp hrl hbl hbll hcr.1 hcr.2)
              (fun hlr => absurd (isRedB_eq_false_of_black hbrr)
                (by simp [hlr]))

end Search

section InsertContainer

variable [LinearOrder K]

/-- Unfolding of the executable validity checker into its five named
invariants. -/
theorem validB_iff {t : RBTree K V} :
    validB t = true ↔
      isBlackB t.root = true ∧ RedOk t.root ∧ (∃ h, Bal t.root h) ∧
        Ordered t.root ∧ t.len = (inorder t.root).length := by
  rw [validB, rootBlackB]
  simp only [Bool.and_eq_true, decide_eq_true_eq]
  constructor
  · rintro ⟨⟨⟨⟨hb, hro⟩, hbal⟩, hasc⟩, hlen⟩
    refine ⟨hb, redOkB_iff.mp hro, ?_, ordered_iff_strictAsc.mpr hasc, hlen⟩
    rcases hh : blackHeight t.root with _ | h
    · rw [hh] at hbal; cases hbal
    · exact ⟨h, blackHeight_iff_bal.mp hh⟩
  · rintro ⟨hb, hro, ⟨h, hbal⟩, ho, hlen⟩
    exact ⟨⟨⟨⟨hb, redOkB_iff.mpr hro⟩,
      by rw [blackHeight_iff_bal.mpr hbal]; rfl⟩,
      ordered_iff_strictAsc.mp ho⟩, hlen⟩

theorem insert_fst_root {t : RBTree K V} {k : K} {v : V} :
    (t.insert k v).1.root = (insert_go t.root [] k v).1 := by
  rw [RBTree.insert]
  rcases h : insert_go t.root [] k v with ⟨r, _ | old⟩ <;> simp

theorem insert_snd {t : RBTree K V} {k : K} {v : V} :
    (t.insert k v).2 = (find_node t.root k).map Prod.snd := by
  rw [RBTree.insert]
  rcases h : insert_go t.root [] k v with ⟨r, _ | old⟩ <;> simp <;>
    rw [← insert_go_snd t.root [] k v, h]

theorem insert_fst_len {t : RBTree K V} {k : K} {v : V} :
    (t.insert k v).1.len =
      t.len + (if (find_node t.root k).isSome then 0 else 1) := by
  rw [RBTree.insert]
  rcases h : insert_go t.root [] k v with ⟨r, _ | old⟩ <;>
    have hs := insert_go_snd t.root [] k v <;> rw [h] at hs <;> simp at hs
  · rcases hf : find_node t.root k with _ | p
    · simp
    · rw [hf] at hs; simp at hs
  · rcases hf : find_node t.root k with _ | p
    · rw [hf] at hs; simp at hs
    · simp

/-- Entry-sequence description of a full insertion on an ordered tree. -/
theorem insert_root_inorder {t : RBTree K V} (ho : Ordered t.root)
    (k : K) (v : V) :
    inorder (t.insert k v).1.root = listInsert k v (inorder t.root) := by
  rw [insert_fst_root, insert_go_inorder ho]
  rfl

/-- Insertion preserves the full executable invariant. -/
theorem insert_validB {t : RBTree K V} (hv : validB t = true) (k : K)
    (v : V) : validB (t.insert k v).1 = true := by
  obtain ⟨hb, hro, ⟨h, hbal⟩, ho, hlen⟩ := validB_iff.mp hv
  have hmain := insert_go_valid t.root [] h k v hbal hro PathInv.nil
    (fun hr => absurd hr (by simp [isRedB_eq_false_of_black hb]))
  refine validB_iff.mpr ⟨?_, ?_, ?_, ?_, ?_⟩
  · rw [insert_fst_root]; exact hmain.2.2
  · rw [insert_fst_root]; exact hmain.1
  · rw [insert_fst_root]; exact hmain.2.1
  · rw [ordered_iff_pairwise, insert_root_inorder ho]
    exact listInsert_sorted (ordered_iff_pairwise.mp ho)
  · rw [insert_fst_len, insert_root_inorder ho]
    rcases hf : find_node t.root k with _ | p
    · rw [listInsert_length_not_mem
        ((find_node_none_iff ho).mp hf)]
      simp [hlen]
    · obtain ⟨hm, hpk⟩ := (find_node_some_iff ho).mp hf
      rw [listInsert_length_mem (ordered_iff_pairwise.mp ho)
        (hpk ▸ List.mem_map_of_mem Prod.fst hm)]
      simp [hlen]

end InsertContainer

/-! Lemmas for deletion: the fixup permutes no entries, and restores the
invariants from a double-black hole. -/

theorem inorder_delete_cases34 (d : Dir) (cp : Color) (kp : K) (vp : V)
    (n : Tree K V) (cs : Color) (sl : Tree K V) (ks : K) (vs : V)
    (sr : Tree K V) (rest : Path K V) :
    inorder (delete_cases34 d cp kp vp n (.node cs sl ks vs sr) rest) =
      inorder (plug (stepTree n ⟨d, cp, kp, vp, .node cs sl ks vs sr⟩)
        rest) := by
  cases d with
  | left =>
    rw [delete_cases34.eq_def]
    by_cases hsr : isBlackB sr = true
    · cases sl <;>
        simp [hsr, inorder_plug, stepTree, inorder, inorder_setBlack,
          List.append_assoc]
    · simp [hsr, inorder_plug, stepTree, inorder, inorder_setBlack,
        List.append_assoc]
  | right =>
    rw [delete_cases34.eq_def]
    by_cases hsl : isBlackB sl = true
    · cases sr <;>
        simp [hsl, inorder_plug, stepTree, inorder, inorder_setBlack,
          List.append_assoc]
    · simp [hsl, inorder_plug, stepTree, inorder, inorder_setBlack,
        List.append_assoc]

theorem inorder_delete_fixup (n : Tree K V) (p : Path K V) :
    inorder (delete_fixup n p) = inorder (plug n p) := by
  induction n, p using delete_fixup.induct with
  | case1 n => rw [delete_fixup, inorder_setBlack]; rfl
  | case2 n st rest hred =>
    rw [delete_fixup, dif_pos hred, inorder_plug, inorder_plug]
    exact inorderP_congr _ (inorder_setBlack n)
  | case3 n st rest hnr sl ks vs sr hsib hd rest' hbb ih =>
    rw [delete_fixup, dif_neg hnr, hd, hsib]
    dsimp only
    rw [if_pos hbb]
    rw [ih, inorder_plug, inorder_plug]
    exact inorderP_congr rest (by
      simp [stepTree, hd, hsib, inorder, inorder_setRed])
  | case4 n st rest hnr sl ks vs sr hsib hd hbb =>
    rw [delete_fixup, dif_neg hnr, hd, hsib]
    dsimp only
    rw [if_neg hbb]
    cases sl with
    | nil => simp [leftT, rightT, isBlackB] at hbb
    | node csl sll ksl vsl slr =>
      rw [inorder_delete_cases34, inorder_plug, inorder_plug]
      exact inorderP_congr rest (by
        simp [stepTree, hd, hsib, inorder])
  | case5 n st rest hnr sl ks vs sr hsib hd rest' hbb ih =>
    rw [delete_fixup, dif_neg hnr, hd, hsib]
    dsimp only
    rw [if_pos hbb]
    rw [ih, inorder_plug, inorder_plug]
    exact inorderP_congr rest (by
      simp [stepTree, hd, hsib, inorder, inorder_setRed])
  | case6 n st rest hnr sl ks vs sr hsib hd hbb =>
    rw [delete_fixup, dif_neg hnr, hd, hsib]
    dsimp only
    rw [if_neg hbb]
    cases sr with
    | nil => simp [leftT, rightT, isBlackB] at hbb
    | node csr srl ksr vsr srr =>
      rw [inorder_delete_cases34, inorder_plug, inorder_plug]
      exact inorderP_congr rest (by
        simp [stepTree, hd, hsib, inorder])
  | case7 n st rest hnr hd hnored hbb ih =>
    rcases hsib : st.sibling with _ | ⟨cs, sl, ks, vs, sr⟩
    · rw [hsib] at ih
      rw [delete_fixup, dif_neg hnr, hd, hsib]
      dsimp only
      rw [if_pos (hsib ▸ hbb)]
      rw [ih, inorder_plug, inorder_plug]
      exact inorderP_congr rest (by
        simp [stepTree, hd, hsib, inorder, inorder_setRed])
    · cases cs with
      | red => exact (hnored _ _ _ _ hsib).elim
      | black =>
        rw [hsib] at ih
        rw [delete_fixup, dif_neg hnr, hd, hsib]
        dsimp only
        rw [if_pos (hsib ▸ hbb)]
        rw [ih, inorder_plug, inorder_plug]
        exact inorderP_congr rest (by
          simp [stepTree, hd, hsib, inorder, inorder_setRed])
  | case8 n st rest hnr hd hnored hbb =>
    rcases hsib : st.sibling with _ | ⟨cs, sl, ks, vs, sr⟩
    · rw [hsib] at hbb; simp [leftT, rightT, isBlackB] at hbb
    · cases cs with
      | red => exact (hnored _ _ _ _ hsib).elim
      | black =>
        rw [delete_fixup, dif_neg hnr, hd, hsib]
        dsimp only
        rw [if_neg (hsib ▸ hbb)]
        rw [inorder_delete_cases34, inorder_plug, inorder_plug]
        exact inorderP_congr rest (by
          simp [stepTree, hd, hsib, inorder])
  | case9 n st rest hnr hd hnored hbb ih =>
    rcases hsib : st.sibling with _ | ⟨cs, sl, ks, vs, sr⟩
    · rw [hsib] at ih
      rw [delete_fixup, dif_neg hnr, hd, hsib]
      dsimp only
      rw [if_pos (hsib ▸ hbb)]
      rw [ih, inorder_plug, inorder_plug]
      exact inorderP_congr rest (by
        simp [stepTree, hd, hsib, inorder, inorder_setRed])
    · cases cs with
      | red => exact (hnored _ _ _ _ hsib).elim
      | black =>
        rw [hsib] at ih
        rw [delete_fixup, dif_neg hnr, hd, hsib]
        dsimp only
        rw [if_pos (hsib ▸ hbb)]
        rw [ih, inorder_plug, inorder_plug]
        exact inorderP_congr rest (by
          simp [stepTree, hd, hsib, inorder, inorder_setRed])
  | case10 n st rest hnr hd hnored hbb =>
    rcases hsib : st.sibling with _ | ⟨cs, sl, ks, vs, sr⟩
    · rw [hsib] at hbb; simp [leftT, rightT, isBlackB] at hbb
    · cases cs with
      | red => exact (hnored _ _ _ _ hsib).elim
      | black =>
        rw [delete_fixup, dif_neg hnr, hd, hsib]
        dsimp only
        rw [if_neg (hsib ▸ hbb)]
        rw [inorder_delete_cases34, inorder_plug, inorder_plug]
        exact inorderP_congr rest (by
          simp [stepTree, hd, hsib, inorder])

theorem almost_redOk {t : Tree K V} (ha : Almost t)
    (hb : isRedB t = false) : RedOk t := by
  rcases t with _ | ⟨c, l, k, v, r⟩
  · exact RedOk.nil
  · cases c with
    | red => simp [isRedB] at hb
    | black => exact RedOk.black ha.1 ha.2

theorem redOk_setRed {t : Tree K V} (hr : RedOk t)
    (hl : isBlackB (leftT t) = true) (hrr : isBlackB (rightT t) = true) :
    RedOk (setRed t) := by
  rcases t with _ | ⟨c, l, k, v, r⟩
  · exact RedOk.nil
  · cases hr with
    | red hol hor _ _ => exact RedOk.red hol hor hl hrr
    | black hol hor => exact RedOk.red hol hor hl hrr

theorem bal_setRed_of_black {t : Tree K V} {h : Nat}
    (hb : isBlackB t = true) (hbal : Bal t (h + 1)) :
    Bal (setRed t) h := by
  rcases t with _ | ⟨c, l, k, v, r⟩
  · cases hbal
  · cases c with
    | red => simp [isBlackB] at hb
    | black =>
      cases hbal with
      | black hbl hbr => exact Bal.red hbl hbr

theorem bal_nil_succ {h : Nat} (hb : Bal (Tree.nil : Tree K V) (h + 1)) :
    False := by cases hb

theorem bool_eq_false {b : Bool} (h : ¬b = true) : b = false := by
  cases b <;> simp_all

/-- Correctness of the rotation arm of `delete_fixup`: with a black hole
of black height `h`, a black non-absent sibling of black height `h + 1`
with a red child, and a well-formed remaining context, the rebuilt tree
satisfies the red rule, has a consistent black height, and a black root. -/
theorem delete_cases34_valid (d : Dir) (cp : Color) (kp : K) (vp : V)
    (n s : Tree K V) (rest : Path K V) (h : Nat)
    (hnb : Bal n h) (hnr : RedOk n) (hnblack : isBlackB n = true)
    (hsb : Bal s (h + 1)) (hsr : RedOk s) (hsblack : isBlackB s = true)
    (hbb : ¬((isBlackB (leftT s) && isBlackB (rightT s)) = true))
    (hp : PathInv rest ((h + 1) + (if cp = Color.black then 1 else 0)))
    (hcomp : cp = Color.red → headColor rest = Color.black) :
    RedOk (delete_cases34 d cp kp vp n s rest) ∧
      (∃ H, Bal (delete_cases34 d cp kp vp n s rest) H) ∧
      isBlackB (delete_cases34 d cp kp vp n s rest) = true := by
  rcases s with _ | ⟨cs, sl, ks, vs, sr⟩
  · simp [leftT, rightT, isBlackB] at hbb
  cases cs with
  | red => simp [isBlackB] at hsblack
  | black =>
  cases hsb with
  | black hbsl hbsr =>
  cases hsr with
  | black hrsl hrsr =>
  have hFinish : ∀ (F : Tree K V), Bal F ((h + 1) +
        (if cp = Color.black then 1 else 0)) → RedOk F →
      (headColor rest = Color.red → isBlackB F = true) →
      RedOk (setBlack (plug F rest)) ∧
        (∃ H, Bal (setBlack (plug F rest)) H) ∧
        isBlackB (setBlack (plug F rest)) = true := by
    intro F hFb hFr hFblack
    have := plug_valid hp hFb hFr hFblack
    exact ⟨redOk_setBlack this.1.almost, bal_setBlack this.2.1.choose_spec,
      isBlackB_setBlack _⟩
  have hFcolor : ∀ (A B : Tree K V) (k0 : K) (v0 : V),
      Bal A (h + 1) → Bal B (h + 1) → RedOk A → RedOk B →
      isBlackB A = true → isBlackB B = true →
      Bal (Tree.node cp A k0 v0 B)
          ((h + 1) + (if cp = Color.black then 1 else 0)) ∧
        RedOk (Tree.node cp A k0 v0 B) ∧
        (headColor rest = Color.red →
          isBlackB (Tree.node cp A k0 v0 B) = true) := by
    intro A B k0 v0 hA hB hrA hrB hbA hbB
    cases cp with
    | red =>
      refine ⟨Bal.red hA hB, RedOk.red hrA hrB hbA hbB, ?_⟩
      intro hrc
      rw [hcomp rfl] at hrc
      cases hrc
    | black =>
      exact ⟨Bal.black hA hB, RedOk.black hrA hrB, fun _ => rfl⟩
  cases d with
  | left =>
    rw [delete_cases34.eq_def]
    dsimp only
    by_cases hsrB : isBlackB sr = true
    · rw [if_pos hsrB]
      have hslred : isBlackB sl = false := by
        rcases hbx : isBlackB sl
        · rfl
        · exact absurd (by simp [leftT, rightT, hbx, hsrB]) hbb
      rcases sl with _ | ⟨csl, sll, ksl, vsl, slr⟩
      · simp [isBlackB] at hslred
      cases csl with
      | black => simp [isBlackB] at hslred
      | red =>
        cases hbsl with
        | red hbsll hbslr =>
        cases hrsl with
        | red hrsll hrslr hbsll2 hbslr2 =>
          dsimp only
          have := hFcolor (Tree.node Color.black n kp vp sll)
            (Tree.node Color.black slr ks vs sr) ksl vsl
            (Bal.black hnb hbsll) (Bal.black hbslr hbsr)
            (RedOk.black hnr hrsll) (RedOk.black hrslr hrsr) rfl rfl
          exact hFinish _ this.1 this.2.1 this.2.2
    · rw [if_neg hsrB]
      dsimp only
      have hsrne : isRedB sr = true := by
        rcases sr with _ | ⟨csr, _, _, _, _⟩
        · simp [isBlackB] at hsrB
        · cases csr
          · rfl
          · simp [isBlackB] at hsrB
      rcases sr with _ | ⟨csr, srl, ksr, vsr, srr⟩
      · simp [isRedB] at hsrne
      cases csr with
      | black => simp [isRedB] at hsrne
      | red =>
        cases hbsr with
        | red hbsrl hbsrr =>
        cases hrsr with
        | red hrsrl hrsrr hbsrl2 hbsrr2 =>
          have := hFcolor (Tree.node Color.black n kp vp sl)
            (Tree.node Color.black srl ksr vsr srr) ks vs
            (Bal.black hnb hbsl) (Bal.black hbsrl hbsrr)
            (RedOk.black hnr hrsl) (RedOk.black hrsrl hrsrr) rfl rfl
          exact hFinish _ this.1 this.2.1 this.2.2
  | right =>
    rw [delete_cases34.eq_def]
    dsimp only
    by_cases hslB : isBlackB sl = true
    · rw [if_pos hslB]
      have hsrred : isBlackB sr = false := by
        rcases hbx : isBlackB sr
        · rfl
        · exact absurd (by simp [leftT, rightT, hbx, hslB]) hbb
      rcases sr with _ | ⟨csr, srl, ksr, vsr, srr⟩
      · simp [isBlackB] at hsrred
      cases csr with
      | black => simp [isBlackB] at hsrred
      | red =>
        cases hbsr with
        | red hbsrl hbsrr =>
        cases hrsr with
        | red hrsrl hrsrr hbsrl2 hbsrr2 =>
          dsimp only
          have := hFcolor (Tree.node Color.black sl ks vs srl)
            (Tree.node Color.black srr kp vp n) ksr vsr
            (Bal.black hbsl hbsrl) (Bal.black hbsrr hnb)
            (RedOk.black hrsl hrsrl) (RedOk.black hrsrr hnr) rfl rfl
          exact hFinish _ this.1 this.2.1 this.2.2
    · rw [if_neg hslB]
      dsimp only
      have hslne : isRedB sl = true := by
        rcases sl with _ | ⟨csl, _, _, _, _⟩
        · simp [isBlackB] at hslB
        · cases csl
          · rfl
          · simp [isBlackB] at hslB
      rcases sl with _ | ⟨csl, sll, ksl, vsl, slr⟩
      · simp [isRedB] at hslne
      cases csl with
      | black => simp [isRedB] at hslne
      | red =>
        cases hbsl with
        | red hbsll hbslr =>
        cases hrsl with
        | red hrsll hrslr hbsll2 hbslr2 =>
          have := hFcolor (Tree.node Color.black sll ksl vsl slr)
            (Tree.node Color.black sr kp vp n) ks vs
            (Bal.black hbsll hbslr) (Bal.black hbsr hnb)
            (RedOk.black hrsll hrslr) (RedOk.black hrsr hnr) rfl rfl
          exact hFinish _ this.1 this.2.1 this.2.2

/-- Correctness of `delete_fixup`: a hole carrying one black deficit (its
subtree balances at `h` where its slot expects `h + 1`), whose children
satisfy the red rule, in a well-formed context, is repaired into a tree
satisfying the red rule, with a consistent black height and a black root. -/
theorem delete_fixup_valid :
    ∀ (n : Tree K V) (p : Path K V) (h : Nat),
      Bal n h → Almost n → PathInv p (h + 1) →
      RedOk (delete_fixup n p) ∧ (∃ H, Bal (delete_fixup n p) H) ∧
        isBlackB (delete_fixup n p) = true := by
  intro n p
  induction n, p using delete_fixup.induct with
  | case1 n =>
    intro h hbal halm _
    rw [delete_fixup]
    exact ⟨redOk_setBlack halm, bal_setBlack hbal, isBlackB_setBlack n⟩
  | case2 n st rest hred =>
    intro h hbal halm hp
    rw [delete_fixup, dif_pos hred]
    have hrn : ∃ a k v b, n = .node Color.red a k v b := by
      rcases n with _ | ⟨c, a, k, v, b⟩
      · simp [isRedB] at hred
      · cases c
        · exact ⟨a, k, v, b, rfl⟩
        · simp [isRedB] at hred
    obtain ⟨a, k, v, b, rfl⟩ := hrn
    cases hbal with
    | red hba hbb =>
      have := plug_valid hp
        (Bal.black hba hbb :
          Bal (setBlack (.node Color.red a k v b)) (h + 1))
        (redOk_setBlack halm) (fun _ => rfl)
      exact ⟨this.1, this.2.1, this.2.2 (by simp)⟩
  | case3 n st rest hnr sl ks vs sr hsib hd rest' hbb ih =>
    intro h hbal halm hp
    obtain ⟨d0, c0, k0, v0, sib0⟩ := st
    dsimp only at hd hsib ih ⊢
    subst hd
    subst hsib
    rw [delete_fixup, dif_neg hnr]
    dsimp only
    rw [if_pos hbb]
    rw [Bool.and_eq_true] at hbb
    cases hp with
    | consRed _ _ _ hsblack _ _ => simp [isBlackB] at hsblack
    | consBlack hrest hsred hsbal =>
      cases hsbal with
      | red hbsl hbsr =>
      cases hsred with
      | red hrsl hrsr hbsl2 hbsr2 =>
        exact ih h
          (Bal.red hbal (bal_setRed_of_black hbsl2 hbsl))
          ⟨almost_redOk halm (bool_eq_false hnr),
            redOk_setRed hrsl hbb.1 hbb.2⟩
          (PathInv.consBlack hrest hrsr hbsr)
  | case4 n st rest hnr sl ks vs sr hsib hd hbb =>
    intro h hbal halm hp
    obtain ⟨d0, c0, k0, v0, sib0⟩ := st
    dsimp only at hd hsib ⊢
    subst hd
    subst hsib
    rw [delete_fixup, dif_neg hnr]
    dsimp only
    rw [if_neg hbb]
    cases hp with
    | consRed _ _ _ hsblack _ _ => simp [isBlackB] at hsblack
    | consBlack hrest hsred hsbal =>
      cases hsbal with
      | red hbsl hbsr =>
      cases hsred with
      | red hrsl hrsr hbsl2 hbsr2 =>
        exact delete_cases34_valid Dir.left Color.red k0 v0 n sl _ h
          hbal (almost_redOk halm (bool_eq_false hnr))
          (isBlackB_not_red (bool_eq_false hnr))
          hbsl hrsl hbsl2 hbb
          (by simpa using PathInv.consBlack hrest hrsr hbsr)
          (fun _ => rfl)
  | case5 n st rest hnr sl ks vs sr hsib hd rest' hbb ih =>
    intro h hbal halm hp
    obtain ⟨d0, c0, k0, v0, sib0⟩ := st
    dsimp only at hd hsib ih ⊢
    subst hd
    subst hsib
    rw [delete_fixup, dif_neg hnr]
    dsimp only
    rw [if_pos hbb]
    rw [Bool.and_eq_true] at hbb
    cases hp with
    | consRed _ _ _ hsblack _ _ => simp [isBlackB] at hsblack
    | consBlack hrest hsred hsbal =>
      cases hsbal with
      | red hbsl hbsr =>
      cases hsred with
      | red hrsl hrsr hbsl2 hbsr2 =>
        exact ih h
          (Bal.red (bal_setRed_of_black hbsr2 hbsr) hbal)
          ⟨redOk_setRed hrsr hbb.1 hbb.2,
            almost_redOk halm (bool_eq_false hnr)⟩
          (PathInv.consBlack hrest hrsl hbsl)
  | case6 n st rest hnr sl ks vs sr hsib hd hbb =>
    intro h hbal halm hp
    obtain ⟨d0, c0, k0, v0, sib0⟩ := st
    dsimp only at hd hsib ⊢
    subst hd
    subst hsib
    rw [delete_fixup, dif_neg hnr]
    dsimp only
    rw [if_neg hbb]
    cases hp with
    | consRed _ _ _ hsblack _ _ => simp [isBlackB] at hsblack
    | consBlack hrest hsred hsbal =>
      cases hsbal with
      | red hbsl hbsr =>
      cases hsred with
      | red hrsl hrsr hbsl2 hbsr2 =>
        exact delete_cases34_valid Dir.right Color.red k0 v0 n sr _ h
          hbal (almost_redOk halm (bool_eq_false hnr))
          (isBlackB_not_red (bool_eq_false hnr))
          hbsr hrsr hbsr2 hbb
          (by simpa using PathInv.consBlack hrest hrsl hbsl)
          (fun _ => rfl)
  | case7 n st rest hnr hd hnored hbb ih =>
    intro h hbal halm hp
    obtain ⟨d0, c0, k0, v0, sib0⟩ := st
    dsimp only at hd hnored hbb ih ⊢
    subst hd
    rcases sib0 with _ | ⟨cs, a1, kk1, vv1, d1⟩
    · cases hp with
      | consBlack _ _ hsbal => exact (bal_nil_succ hsbal).elim
      | consRed _ _ hsbal _ _ _ => exact (bal_nil_succ hsbal).elim
    · cases cs with
      | red => exact (hnored _ _ _ _ rfl).elim
      | black =>
        rw [delete_fixup, dif_neg hnr]
        dsimp only
        rw [if_pos hbb]
        rw [Bool.and_eq_true] at hbb
        cases hp with
        | consBlack hrest hsred hsbal =>
          exact ih (h + 1)
            (Bal.black hbal (bal_setRed_of_black rfl hsbal))
            ⟨almost_redOk halm (bool_eq_false hnr),
              redOk_setRed hsred hbb.1 hbb.2⟩
            hrest
        | consRed hrest hsred hsbal hsblack hhc hne =>
          exact ih h
            (Bal.red hbal (bal_setRed_of_black hsblack hsbal))
            ⟨almost_redOk halm (bool_eq_false hnr),
              redOk_setRed hsred hbb.1 hbb.2⟩
            hrest
  | case8 n st rest hnr hd hnored hbb =>
    intro h hbal halm hp
    obtain ⟨d0, c0, k0, v0, sib0⟩ := st
    dsimp only at hd hnored hbb ⊢
    subst hd
    rcases sib0 with _ | ⟨cs, a1, kk1, vv1, d1⟩
    · cases hp with
      | consBlack _ _ hsbal => exact (bal_nil_succ hsbal).elim
      | consRed _ _ hsbal _ _ _ => exact (bal_nil_succ hsbal).elim
    · cases cs with
      | red => exact (hnored _ _ _ _ rfl).elim
      | black =>
        rw [delete_fixup, dif_neg hnr]
        dsimp only
        rw [if_neg hbb]
        cases hp with
        | consBlack hrest hsred hsbal =>
          exact delete_cases34_valid Dir.left Color.black k0 v0 n _ rest h
            hbal (almost_redOk halm (bool_eq_false hnr))
            (isBlackB_not_red (bool_eq_false hnr))
            hsbal hsred rfl hbb (by simpa using hrest)
            (fun hc => by cases hc)
        | consRed hrest hsred hsbal hsblack hhc hne =>
          exact delete_cases34_valid Dir.left Color.red k0 v0 n _ rest h
            hbal (almost_redOk halm (bool_eq_false hnr))
            (isBlackB_not_red (bool_eq_false hnr))
            hsbal hsred rfl hbb (by simpa using hrest)
            (fun _ => hhc)
  | case9 n st rest hnr hd hnored hbb ih =>
    intro h hbal halm hp
    obtain ⟨d0, c0, k0, v0, sib0⟩ := st
    dsimp only at hd hnored hbb ih ⊢
    subst hd
    rcases sib0 with _ | ⟨cs, a1, kk1, vv1, d1⟩
    · cases hp with
      | consBlack _ _ hsbal => exact (bal_nil_succ hsbal).elim
      | consRed _ _ hsbal _ _ _ => exact (bal_nil_succ hsbal).elim
    · cases cs with
      | red => exact (hnored _ _ _ _ rfl).elim
      | black =>
        rw [delete_fixup, dif_neg hnr]
        dsimp only
        rw [if_pos hbb]
        rw [Bool.and_eq_true] at hbb
        cases hp with
        | consBlack hrest hsred hsbal =>
          exact ih (h + 1)
            (Bal.black (bal_setRed_of_black rfl hsbal) hbal)
            ⟨redOk_setRed hsred hbb.1 hbb.2,
              almost_redOk halm (bool_eq_false hnr)⟩
            hrest
        | consRed hrest hsred hsbal hsblack hhc hne =>
          exact ih h
            (Bal.red (bal_setRed_of_black hsblack hsbal) hbal)
            ⟨redOk_setRed hsred hbb.1 hbb.2,
              almost_redOk halm (bool_eq_false hnr)⟩
            hrest
  | case10 n st rest hnr hd hnored hbb =>
    intro h hbal halm hp
    obtain ⟨d0, c0, k0, v0, sib0⟩ := st
    dsimp only at hd hnored hbb ⊢
    subst hd
    rcases sib0 with _ | ⟨cs, a1, kk1, vv1, d1⟩
    · cases hp with
      | consBlack _ _ hsbal => exact (bal_nil_succ hsbal).elim
      | consRed _ _ hsbal _ _ _ => exact (bal_nil_succ hsbal).elim
    · cases cs with
      | red => exact (hnored _ _ _ _ rfl).elim
      | black =>
        rw [delete_fixup, dif_neg hnr]
        dsimp only
        rw [if_neg hbb]
        cases hp with
        | consBlack hrest hsred hsbal =>
          exact delete_cases34_valid Dir.right Color.black k0 v0 n _ rest h
            hbal (almost_redOk halm (bool_eq_false hnr))
            (isBlackB_not_red (bool_eq_false hnr))
            hsbal hsred rfl hbb (by simpa using hrest)
            (fun hc => by cases hc)
        | consRed hrest hsred hsbal hsblack hhc hne =>
          exact delete_cases34_valid Dir.right Color.red k0 v0 n _ rest h
            hbal (almost_redOk halm (bool_eq_false hnr))
            (isBlackB_not_red (bool_eq_false hnr))
            hsbal hsred rfl hbb (by simpa using hrest)
            (fun _ => hhc)

/-- Decomposition of the successor walk: it returns the entry, color and
right child of the leftmost node, and the all-left parent chain back to
the subtree root, appended to the accumulator. -/
theorem splitMin_inorder (l : Tree K V) :
    ∀ (c : Color) (x : K) (y : V) (r : Tree K V) (acc : Path K V),
      ∃ ks vs cs sr rel,
        splitMin c l x y r acc = (ks, vs, cs, sr, rel ++ acc) ∧
        (ks, vs) :: inorder (plug sr rel) = inorder (.node c l x y r) := by
  induction l with
  | nil =>
    intro c x y r acc
    exact ⟨x, y, c, r, [], rfl, by simp [plug, inorder]⟩
  | node cl ll xl yl rl ihl _ =>
    intro c x y r acc
    obtain ⟨ks, vs, cs, sr, rel, heq, hino⟩ :=
      ihl cl xl yl rl (⟨.left, c, x, y, r⟩ :: acc)
    refine ⟨ks, vs, cs, sr, rel ++ [⟨.left, c, x, y, r⟩], ?_, ?_⟩
    · rw [splitMin, heq]
      simp
    · rw [plug_append]
      show (ks, vs) :: inorder
          (stepTree (plug sr rel) ⟨.left, c, x, y, r⟩) = _
      have : inorder (stepTree (plug sr rel) (⟨.left, c, x, y, r⟩ :
          PathStep K V)) = inorder (plug sr rel) ++ (x, y) :: inorder r := by
        simp [stepTree, inorder]
      rw [this, inorder]
      rw [← hino]
      rfl

/-- Invariant bookkeeping of the successor walk: the removed node's color
and right child, and the well-formedness of the extended hole context. -/
theorem splitMin_valid (l : Tree K V) :
    ∀ (c : Color) (x : K) (y : V) (r : Tree K V) (acc : Path K V) (H : Nat),
      Bal (.node c l x y r) H → RedOk (.node c l x y r) →
      ∃ ks vs cs sr rel h0,
        splitMin c l x y r acc = (ks, vs, cs, sr, rel ++ acc) ∧
        Bal sr h0 ∧ RedOk sr ∧ (cs = Color.red → isBlackB sr = true) ∧
        ∀ q, PathInv q H →
          (c = Color.red → headColor q = Color.black ∧ q ≠ []) →
          PathInv (rel ++ q) (h0 + (if cs = Color.black then 1 else 0)) := by
  induction l with
  | nil =>
    intro c x y r acc H hbal hred
    refine ⟨x, y, c, r, [], 0, rfl, ?_⟩
    cases c with
    | red =>
      cases hbal with
      | red hbl hbr =>
        cases hbl
        cases hred with
        | red hrl hrr hbl2 hbr2 =>
          refine ⟨hbr, hrr, fun _ => hbr2, fun q hq _ => ?_⟩
          simpa using hq
    | black =>
      cases hbal with
      | black hbl hbr =>
        cases hbl
        cases hred with
        | black hrl hrr =>
          refine ⟨hbr, hrr, fun hc => absurd hc (by simp), fun q hq _ => ?_⟩
          simpa using hq
  | node cl ll xl yl rl ihl _ =>
    intro c x y r acc H hbal hred
    have hshape : ∃ hl, Bal (.node cl ll xl yl rl) hl ∧ Bal r hl ∧
        H = hl + (if c = Color.black then 1 else 0) := by
      cases hbal with
      | red hbl hbr => exact ⟨_, hbl, hbr, by simp⟩
      | black hbl hbr => exact ⟨_, hbl, hbr, by simp⟩
    obtain ⟨hl, hbll, hbr, hHeq⟩ := hshape
    have hrshape : RedOk (.node cl ll xl yl rl) ∧ RedOk r ∧
        (c = Color.red → isBlackB (.node cl ll xl yl rl) = true ∧
          isBlackB r = true) := by
      cases hred with
      | red hrl hrr hbl2 hbr2 => exact ⟨hrl, hrr, fun _ => ⟨hbl2, hbr2⟩⟩
      | black hrl hrr => exact ⟨hrl, hrr, fun hc => absurd hc (by simp)⟩
    obtain ⟨ks, vs, cs, sr, rel, h0, heq, hsrb, hsrr, hcs, hcond⟩ :=
      ihl cl xl yl rl (⟨.left, c, x, y, r⟩ :: acc) hl hbll hrshape.1
    refine ⟨ks, vs, cs, sr, rel ++ [⟨.left, c, x, y, r⟩], h0, ?_, hsrb,
      hsrr, hcs, ?_⟩
    · rw [splitMin, heq]
      simp
    · intro q hq hcq
      have hstep : PathInv ((⟨Dir.left, c, x, y, r⟩ : PathStep K V) :: q)
          hl := by
        cases c with
        | black =>
          refine PathInv.consBlack ?_ hrshape.2.1 hbr
          rw [hHeq] at hq
          simpa using hq
        | red =>
          refine PathInv.consRed ?_ hrshape.2.1 hbr
            ((hrshape.2.2 rfl).2) (hcq rfl).1 (hcq rfl).2
          rw [hHeq] at hq
          simpa using hq
      have hclcond : cl = Color.red →
          headColor ((⟨Dir.left, c, x, y, r⟩ : PathStep K V) :: q) =
            Color.black ∧
          ((⟨Dir.left, c, x, y, r⟩ : PathStep K V) :: q) ≠ [] := by
        intro hcl
        refine ⟨?_, by simp⟩
        show c = Color.black
        cases c with
        | black => rfl
        | red =>
          have := (hrshape.2.2 rfl).1
          rw [hcl] at this
          simp [isBlackB] at this
      have := hcond (⟨Dir.left, c, x, y, r⟩ :: q) hstep hclcond
      simpa [List.append_assoc] using this

/-- Entry-sequence description of `delete`: the unlinked node's entry
disappears, every other entry stays in order. -/
theorem delete_at_inorder (c : Color) (l : Tree K V) (x : K) (y : V)
    (r : Tree K V) (path : Path K V) :
    inorder (delete_at c l x y r path) =
      inorderP path (inorder l ++ inorder r) := by
  rcases l with _ | ⟨cl, ll, xl, yl, rl⟩
  · rcases r with _ | ⟨cr, rl', xr, yr, rr⟩
    · rw [delete_at.eq_def]
      dsimp only
      by_cases hc : c = Color.black
      · rw [if_pos hc, inorder_delete_fixup, inorder_plug]
        rfl
      · rw [if_neg hc, inorder_plug]
        rfl
    · rw [delete_at.eq_def]
      dsimp only
      by_cases hc : c = Color.black
      · rw [if_pos hc, inorder_delete_fixup, inorder_plug]
        rfl
      · rw [if_neg hc, inorder_plug]
        rfl
  · rcases r with _ | ⟨cr, rl', xr, yr, rr⟩
    · rw [delete_at.eq_def]
      dsimp only
      by_cases hc : c = Color.black
      · rw [if_pos hc, inorder_delete_fixup, inorder_plug]
        simp [inorder]
      · rw [if_neg hc, inorder_plug]
        simp [inorder]
    · rw [delete_at.eq_def]
      dsimp only
      obtain ⟨ks, vs, cs, sr, rel, heq, hino⟩ :=
        splitMin_inorder rl' cr xr yr rr []
      rw [List.append_nil] at heq
      rw [heq]
      dsimp only
      have hkey : ∀ (T : Tree K V), inorder T =
            inorder (plug sr (rel ++
              (⟨Dir.right, c, ks, vs, .node cl ll xl yl rl⟩ :: path))) →
          inorder T =
            inorderP path (inorder (.node cl ll xl yl rl) ++
              inorder (.node cr rl' xr yr rr)) := by
        intro T hT
        rw [hT, plug_append]
        show inorder (plug (stepTree (plug sr rel) _) path) = _
        rw [inorder_plug]
        refine inorderP_congr path ?_
        show inorder (.node c (.node cl ll xl yl rl) ks vs (plug sr rel))
            = _
        rw [inorder, ← hino]
      by_cases hcs : cs = Color.black
      · rw [if_pos hcs]
        exact hkey _ (inorder_delete_fixup _ _)
      · rw [if_neg hcs]
        exact hkey _ rfl

/-- Invariant preservation of `delete`: unlinking a located node from a
valid subtree in a well-formed context leaves the invariants intact. -/
theorem delete_at_valid (c : Color) (l : Tree K V) (x : K) (y : V)
    (r : Tree K V) (path : Path K V) (hn : Nat)
    (hbal : Bal (.node c l x y r) hn) (hred : RedOk (.node c l x y r))
    (hp : PathInv path hn)
    (hcond : c = Color.red → headColor path = Color.black ∧ path ≠ []) :
    RedOk (delete_at c l x y r path) ∧
      (∃ H, Bal (delete_at c l x y r path) H) ∧
      isBlackB (delete_at c l x y r path) = true := by
  have honechild : ∀ (child : Tree K V), Bal child 0 → RedOk child →
      (c = Color.red → isBlackB child = true) →
      (match c, hn with | _, _ => True) →
      (c = Color.black → hn = 1) → (c = Color.red → hn = 0) →
      RedOk (if c = Color.black then delete_fixup child path
          else plug child path) ∧
        (∃ H, Bal (if c = Color.black then delete_fixup child path
          else plug child path) H) ∧
        isBlackB (if c = Color.black then delete_fixup child path
          else plug child path) = true := by
    intro child hcb hcr hcblack _ hnb hnr
    by_cases hc : c = Color.black
    · rw [if_pos hc]
      exact delete_fixup_valid child path 0 hcb hcr.almost
        (by have h2 := hp; rw [hnb hc] at h2; simpa using h2)
    · rw [if_neg hc]
      have hcred : c = Color.red := by cases c; rfl; exact absurd rfl hc
      have := plug_valid
        (by have h2 := hp; rw [hnr hcred] at h2; simpa using h2) hcb hcr
        (fun _ => hcblack hcred)
      exact ⟨this.1, this.2.1, this.2.2 (hcond hcred).2⟩
  rcases l with _ | ⟨cl, ll, xl, yl, rl⟩
  · -- no left child: the right child replaces the node
    have hshape : Bal r 0 ∧ (c = Color.black → hn = 1) ∧
        (c = Color.red → hn = 0) := by
      cases hbal with
      | red hbl hbr =>
        cases hbl
        exact ⟨hbr, fun hc => absurd hc (by simp), fun _ => rfl⟩
      | black hbl hbr =>
        cases hbl
        exact ⟨hbr, fun _ => rfl, fun hc => absurd hc (by simp)⟩
    have hrr : RedOk r ∧ (c = Color.red → isBlackB r = true) := by
      cases hred with
      | red hrl hrr hbl2 hbr2 => exact ⟨hrr, fun _ => hbr2⟩
      | black hrl hrr => exact ⟨hrr, fun hc => absurd hc (by simp)⟩
    have := honechild r hshape.1 hrr.1 hrr.2 trivial hshape.2.1 hshape.2.2
    rcases r with _ | ⟨cr, rl', xr, yr, rr⟩ <;>
      simpa [delete_at.eq_def] using this
  · rcases r with _ | ⟨cr, rl', xr, yr, rr⟩
    · -- left child only
      have hshape : Bal (.node cl ll xl yl rl) 0 ∧
          (c = Color.black → hn = 1) ∧ (c = Color.red → hn = 0) := by
        cases hbal with
        | red hbl hbr =>
          cases hbr
          exact ⟨hbl, fun hc => absurd hc (by simp), fun _ => rfl⟩
        | black hbl hbr =>
          cases hbr
          exact ⟨hbl, fun _ => rfl, fun hc => absurd hc (by simp)⟩
      have hrr : RedOk (.node cl ll xl yl rl) ∧
          (c = Color.red → isBlackB (.node cl ll xl yl rl) = true) := by
        cases hred with
        | red hrl hrr hbl2 hbr2 => exact ⟨hrl, fun _ => hbl2⟩
        | black hrl hrr => exact ⟨hrl, fun hc => absurd hc (by simp)⟩
      have := honechild _ hshape.1 hrr.1 hrr.2 trivial hshape.2.1
        hshape.2.2
      simpa [delete_at.eq_def] using this
    · -- two children: splice the in-order successor
      have hshape : ∃ hl, Bal (.node cl ll xl yl rl) hl ∧
          Bal (.node cr rl' xr yr rr) hl ∧
          hn = hl + (if c = Color.black then 1 else 0) := by
        cases hbal with
        | red hbl hbr => exact ⟨_, hbl, hbr, by simp⟩
        | black hbl hbr => exact ⟨_, hbl, hbr, by simp⟩
      obtain ⟨hl, hbll, hbrr, hHeq⟩ := hshape
      have hrshape : RedOk (.node cl ll xl yl rl) ∧
          RedOk (.node cr rl' xr yr rr) ∧
          (c = Color.red → isBlackB (.node cl ll xl yl rl) = true ∧
            isBlackB (.node cr rl' xr yr rr) = true) := by
        cases hred with
        | red hrl hrr hbl2 hbr2 => exact ⟨hrl, hrr, fun _ => ⟨hbl2, hbr2⟩⟩
        | black hrl hrr => exact ⟨hrl, hrr, fun hc => absurd hc (by simp)⟩
      obtain ⟨ks, vs, cs, sr, rel, h0, heq, hsrb, hsrr, hcs, hcondS⟩ :=
        splitMin_valid rl' cr xr yr rr [] hl hbrr hrshape.2.1
      rw [List.append_nil] at heq
      rw [delete_at.eq_def]
      dsimp only
      rw [heq]
      dsimp only
      have hstep : PathInv
          ((⟨Dir.right, c, ks, vs, .node cl ll xl yl rl⟩ : PathStep K V)
            :: path) hl := by
        cases c with
        | black =>
          refine PathInv.consBlack ?_ hrshape.1 hbll
          rw [hHeq] at hp
          simpa using hp
        | red =>
          refine PathInv.consRed ?_ hrshape.1 hbll
            ((hrshape.2.2 rfl).1) (hcond rfl).1 (hcond rfl).2
          rw [hHeq] at hp
          simpa using hp
      have hcrcond : cr = Color.red →
          headColor ((⟨Dir.right, c, ks, vs, .node cl ll xl yl rl⟩ :
              PathStep K V) :: path) = Color.black ∧
          ((⟨Dir.right, c, ks, vs, .node cl ll xl yl rl⟩ :
              PathStep K V) :: path) ≠ [] := by
        intro hcr2
        refine ⟨?_, by simp⟩
        show c = Color.black
        cases c with
        | black => rfl
        | red =>
          have := (hrshape.2.2 rfl).2
          rw [hcr2] at this
          simp [isBlackB] at this
      have hfullpath := hcondS _ hstep hcrcond
      by_cases hcs2 : cs = Color.black
      · rw [if_pos hcs2]
        rw [hcs2] at hfullpath
        simp only [if_pos rfl] at hfullpath
        exact delete_fixup_valid sr _ h0 hsrb hsrr.almost hfullpath
      · rw [if_neg hcs2]
        have hcsred : cs = Color.red := by
          cases cs; rfl; exact absurd rfl hcs2
        rw [hcsred] at hfullpath
        simp only [if_neg (by simp : ¬(Color.red = Color.black))]
          at hfullpath
        simp only [Nat.add_zero] at hfullpath
        have := plug_valid hfullpath hsrb hsrr (fun _ => hcs hcsred)
        exact ⟨this.1, this.2.1, this.2.2 (by simp)⟩

section RemoveLemmas

variable [LinearOrder K]

/-- Value-level erasure of a key from an entry sequence, the in-order
effect of `remove`. -/
def listEraseKey (k : K) (l : List (K × V)) : List (K × V) :=
  l.filter fun p => decide (p.1 ≠ k)

theorem listEraseKey_of_not_mem {k : K} {l : List (K × V)}
    (h : ∀ p ∈ l, p.1 ≠ k) : listEraseKey k l = l := by
  rw [listEraseKey, List.filter_eq_self]
  intro p hp
  simpa using h p hp

theorem listEraseKey_append (k : K) (A B : List (K × V)) :
    listEraseKey k (A ++ B) = listEraseKey k A ++ listEraseKey k B := by
  rw [listEraseKey, List.filter_append]
  rfl

theorem listEraseKey_length_mem {k : K} {l : List (K × V)}
    (hs : l.Pairwise (fun p q => p.1 < q.1)) (hm : k ∈ l.map Prod.fst) :
    (listEraseKey k l).length + 1 = l.length := by
  induction l with
  | nil => simp at hm
  | cons q l ih =>
    obtain ⟨a, b⟩ := q
    rw [List.pairwise_cons] at hs
    rcases (by simpa using hm : k = a ∨ ∃ w, (k, w) ∈ l) with rfl | ⟨w, hw⟩
    · rw [listEraseKey, List.filter_cons_of_neg (by simp)]
      rw [show List.filter (fun p => decide (p.1 ≠ k)) l = listEraseKey k l
          from rfl,
        listEraseKey_of_not_mem
          (fun p hp => ne_of_gt (hs.1 p hp))]
      simp
    · rw [listEraseKey, List.filter_cons_of_pos
        (by simp; exact fun hc => absurd (hc ▸ hw) (fun hcon =>
          absurd (hs.1 _ hcon) (lt_irrefl a)))]
      rw [show List.filter (fun p => decide (p.1 ≠ k)) l = listEraseKey k l
          from rfl]
      simp only [List.length_cons]
      rw [← ih hs.2 (List.mem_map_of_mem Prod.fst hw)]
  
theorem listEraseKey_not_mem_keys (k : K) (l : List (K × V)) :
    k ∉ (listEraseKey k l).map Prod.fst := by
  intro hm
  rw [List.mem_map] at hm
  obtain ⟨p, hp, hpk⟩ := hm
  rw [listEraseKey, List.mem_filter] at hp
  exact absurd hpk (by simpa using hp.2)

theorem listEraseKey_sorted {k : K} {l : List (K × V)}
    (hs : l.Pairwise (fun p q => p.1 < q.1)) :
    (listEraseKey k l).Pairwise (fun p q => p.1 < q.1) :=
  hs.sublist (List.filter_sublist l)

/-- A key missed by the search is untouched by the remove descent. -/
theorem remove_go_none_iff {t : Tree K V} :
    ∀ {path : Path K V} {k : K},
      remove_go t path k = none ↔ find_node t k = none := by
  induction t with
  | nil => simp [remove_go, find_node]
  | node c l x y r ihl ihr =>
    intro path k
    rw [remove_go, find_node]
    cases hc : cmp k x
    · exact ihl
    · simp
    · exact ihr

/-- A found key is unlinked: the result's entry sequence is the context
applied to the erasure of the key, and the returned value is the entry's
value. -/
theorem remove_go_some_spec {t : Tree K V} (ho : Ordered t) :
    ∀ {path : Path K V} {k : K} {T' : Tree K V} {v : V},
      remove_go t path k = some (T', v) →
      find_node t k = some (k, v) ∧
        inorder T' = inorderP path (listEraseKey k (inorder t)) := by
  induction t with
  | nil => intro path k T' v h; simp [remove_go] at h
  | node c l x y r ihl ihr =>
    cases ho with
    | node hol hor hlx hxr =>
      intro path k T' v h
      rw [remove_go] at h
      cases hc : cmp k x <;> rw [hc] at h
      · obtain ⟨hf, hino⟩ := ihl hol h
        have hff : find_node (Tree.node c l x y r) k = find_node l k := by
          rw [find_node, hc]
        refine ⟨by rw [hff]; exact hf, ?_⟩
        rw [hino]
        show inorderP path (listEraseKey k (inorder l) ++ (x, y) ::
          inorder r) = _
        refine (inorderP_congr path ?_).symm
        rw [inorder, listEraseKey_append]
        rw [show listEraseKey k ((x, y) :: inorder r) =
            (x, y) :: inorder r from
          listEraseKey_of_not_mem (by
            intro p hp
            rcases List.mem_cons.mp hp with rfl | hp'
            · exact fun hcon => absurd (cmp_lt_iff.mp hc)
                (by rw [show x = k from hcon]; exact lt_irrefl k)
            · exact fun hcon =>
                absurd (lt_trans (cmp_lt_iff.mp hc) (hxr p hp'))
                  (by rw [hcon]; exact lt_irrefl k))]
      · have hTv : delete_at c l x y r path = T' ∧ y = v := by
          rw [Option.some_inj] at h
          exact ⟨congrArg Prod.fst h, congrArg Prod.snd h⟩
        have hkx : k = x := cmp_eq_iff.mp hc
        constructor
        · rw [find_node, hc, ← hTv.2, hkx]
        · rw [← hTv.1, delete_at_inorder, hkx]
          refine (inorderP_congr path ?_).symm
          rw [inorder, listEraseKey_append]
          rw [listEraseKey_of_not_mem (fun p hp => ne_of_lt (hlx p hp))]
          rw [show listEraseKey x ((x, y) :: inorder r) = inorder r by
            rw [listEraseKey, List.filter_cons_of_neg (by simp)]
            exact listEraseKey_of_not_mem
              (fun p hp => ne_of_gt (hxr p hp))]
      · obtain ⟨hf, hino⟩ := ihr hor h
        have hff : find_node (Tree.node c l x y r) k = find_node r k := by
          rw [find_node, hc]
        refine ⟨by rw [hff]; exact hf, ?_⟩
        rw [hino]
        show inorderP path (inorder l ++ (x, y) ::
          listEraseKey k (inorder r)) = _
        refine (inorderP_congr path ?_).symm
        rw [inorder, listEraseKey_append]
        rw [show listEraseKey k (inorder l) = inorder l from
          listEraseKey_of_not_mem (fun p hp =>
            ne_of_lt (lt_trans (hlx p hp) (cmp_gt_iff.mp hc)))]
        rw [show listEraseKey k ((x, y) :: inorder r) =
            (x, y) :: listEraseKey k (inorder r) by
          rw [listEraseKey, List.filter_cons_of_pos (by
            simp
            exact fun hcon => absurd (cmp_gt_iff.mp hc)
              (by rw [hcon]; exact lt_irrefl k))]
          rfl]

/-- Invariant preservation along the remove descent. -/
theorem remove_go_valid :
    ∀ (t : Tree K V) (path : Path K V) (h : Nat) (k : K),
      Bal t h → RedOk t → PathInv path h →
      (isRedB t = true → headColor path = Color.black ∧ path ≠ []) →
      ∀ {T' : Tree K V} {v : V}, remove_go t path k = some (T', v) →
      RedOk T' ∧ (∃ H, Bal T' H) ∧ isBlackB T' = true := by
  intro t
  induction t with
  | nil => intro path h k _ _ _ _ T' v hx; simp [remove_go] at hx
  | node c l x y r ihl ihr =>
    intro path h k hbal hred hp hcond T' v hx
    rw [remove_go] at hx
    cases hc : cmp k x <;> rw [hc] at hx
    · cases c with
      | black =>
        cases hbal with
        | black hbl hbr =>
          cases hred with
          | black hrl hrr =>
            exact ihl _ _ k hbl hrl (PathInv.consBlack hp hrr hbr)
              (fun _ => ⟨rfl, by simp⟩) hx
      | red =>
        cases hbal with
        | red hbl hbr =>
          cases hred with
          | red hrl hrr hbll hbrr =>
            exact ihl _ _ k hbl hrl
              (PathInv.consRed hp hrr hbr hbrr (hcond rfl).1 (hcond rfl).2)
              (fun hlr => absurd (isRedB_eq_false_of_black hbll)
                (by simp [hlr])) hx
    · obtain rfl : T' = delete_at c l x y r path := by
        injection hx with h2
        injection h2 with h3 _
        exact h3.symm
      exact delete_at_valid c l x y r path h hbal hred hp
        (fun hcred => hcond (by rw [hcred]; rfl))
    · cases c with
      | black =>
        cases hbal with
        | black hbl hbr =>
          cases hred with
          | black hrl hrr =>
            exact ihr _ _ k hbr hrr (PathInv.consBlack hp hrl hbl)
              (fun _ => ⟨rfl, by simp⟩) hx
      | red =>
        cases hbal with
        | red hbl hbr =>
          cases hred with
          | red hrl hrr hbll hbrr =>
            exact ihr _ _ k hbr hrr
              (PathInv.consRed hp hrl hbl hbll (hcond rfl).1 (hcond rfl).2)
              (fun hlr => absurd (isRedB_eq_false_of_black hbrr)
                (by simp [hlr])) hx

theorem remove_of_none {t : RBTree K V} {k : K}
    (hf : find_node t.root k = none) : t.remove k = (t, none) := by
  rw [RBTree.remove, remove_go_none_iff.mpr hf]

theorem remove_snd {t : RBTree K V} (ho : Ordered t.root) (k : K) :
    (t.remove k).2 = (find_node t.root k).map Prod.snd := by
  rw [RBTree.remove]
  cases hg : remove_go t.root [] k with
  | none =>
    rw [remove_go_none_iff.mp hg]
    rfl
  | some p =>
    obtain ⟨T', v⟩ := p
    rw [(remove_go_some_spec ho hg).1]
    rfl

/-- Entry-sequence description of a full removal on an ordered tree. -/
theorem remove_root_inorder {t : RBTree K V} (ho : Ordered t.root)
    (k : K) :
    inorder (t.remove k).1.root = listEraseKey k (inorder t.root) := by
  rw [RBTree.remove]
  cases hg : remove_go t.root [] k with
  | none =>
    have := remove_go_none_iff.mp hg
    rw [listEraseKey_of_not_mem]
    intro p hp hpk
    rw [(find_node_some_iff ho).mpr ⟨hp, hpk⟩] at this
    cases this
  | some p =>
    obtain ⟨T', v⟩ := p
    exact (remove_go_some_spec ho hg).2

theorem remove_fst_len {t : RBTree K V} {k : K} :
    (t.remove k).1.len =
      if (find_node t.root k).isSome then t.len - 1 else t.len := by
  rw [RBTree.remove]
  cases hg : remove_go t.root [] k with
  | none =>
    rw [remove_go_none_iff.mp hg]
    rfl
  | some p =>
    obtain ⟨T', v⟩ := p
    rcases hf : find_node t.root k with _ | q
    · rw [← remove_go_none_iff] at hf
      rw [hf] at hg
      cases hg
    · rfl

/-- Removal preserves the full executable invariant. -/
theorem remove_validB {t : RBTree K V} (hv : validB t = true) (k : K) :
    validB (t.remove k).1 = true := by
  obtain ⟨hb, hro, ⟨h, hbal⟩, ho, hlen⟩ := validB_iff.mp hv
  cases hg : remove_go t.root [] k with
  | none =>
    have heq : t.remove k = (t, none) :=
      remove_of_none (remove_go_none_iff.mp hg)
    rw [heq]
    exact hv
  | some p =>
    obtain ⟨T', v⟩ := p
    have hmain := remove_go_valid t.root [] h k hbal hro PathInv.nil
      (fun hr => absurd hr (by simp [isRedB_eq_false_of_black hb])) hg
    have hfound := (remove_go_some_spec ho hg).1
    have hroot : (t.remove k).1.root = T' := by
      rw [RBTree.remove, hg]
    refine validB_iff.mpr ⟨?_, ?_, ?_, ?_, ?_⟩
    · rw [hroot]; exact hmain.2.2
    · rw [hroot]; exact hmain.1
    · rw [hroot]; exact hmain.2.1
    · rw [ordered_iff_pairwise, remove_root_inorder ho]
      exact listEraseKey_sorted (ordered_iff_pairwise.mp ho)
    · rw [remove_fst_len, remove_root_inorder ho, hfound]
      have hm : k ∈ (inorder t.root).map Prod.fst := by
        obtain ⟨hmem, hk⟩ := (find_node_some_iff ho).mp hfound
        exact hk ▸ List.mem_map_of_mem Prod.fst hmem
      have := listEraseKey_length_mem (ordered_iff_pairwise.mp ho) hm
      simp only [Option.isSome_some, if_true]
      omega

end RemoveLemmas

section PopLemmas

variable [LinearOrder K]

/-- The left-spine descent of `pop_first` finds the head of the in-order
sequence and unlinks it. -/
theorem pop_first_go_some :
    ∀ (t : Tree K V), t ≠ .nil → ∀ (path : Path K V),
      ∃ T' k0 v0 rest0,
        pop_first_go t path = some (T', k0, v0) ∧
        inorder t = (k0, v0) :: rest0 ∧
        inorder T' = inorderP path rest0 := by
  intro t
  induction t with
  | nil => intro h; exact absurd rfl h
  | node c l x y r ihl _ =>
    intro _ path
    rcases l with _ | ⟨cl, ll, xl, yl, rl⟩
    · refine ⟨delete_at c .nil x y r path, x, y, inorder r, rfl, by
        simp [inorder], ?_⟩
      rw [delete_at_inorder]
      rfl
    · obtain ⟨T', k0, v0, rest0, heq, hino, hT⟩ :=
        ihl (by simp) (⟨.left, c, x, y, r⟩ :: path)
      refine ⟨T', k0, v0, rest0 ++ (x, y) :: inorder r, ?_, ?_, ?_⟩
      · rw [pop_first_go]
        exact heq
      · rw [inorder, hino]
        rfl
      · rw [hT]
        rfl

/-- The right-spine descent of `pop_last` finds the last entry of the
in-order sequence and unlinks it. -/
theorem pop_last_go_some :
    ∀ (t : Tree K V), t ≠ .nil → ∀ (path : Path K V),
      ∃ T' k0 v0 rest0,
        pop_last_go t path = some (T', k0, v0) ∧
        inorder t = rest0 ++ [(k0, v0)] ∧
        inorder T' = inorderP path rest0 := by
  intro t
  induction t with
  | nil => intro h; exact absurd rfl h
  | node c l x y r _ ihr =>
    intro _ path
    rcases r with _ | ⟨cr, rl, xr, yr, rr⟩
    · refine ⟨delete_at c l x y .nil path, x, y, inorder l, rfl, by
        simp [inorder], ?_⟩
      rw [delete_at_inorder]
      simp [inorder]
    · obtain ⟨T', k0, v0, rest0, heq, hino, hT⟩ :=
        ihr (by simp) (⟨.right, c, x, y, l⟩ :: path)
      refine ⟨T', k0, v0, inorder l ++ (x, y) :: rest0, ?_, ?_, ?_⟩
      · rw [pop_last_go]
        exact heq
      · rw [inorder, hino]
        simp
      · rw [hT]
        rfl

theorem pop_first_go_valid :
    ∀ (t : Tree K V) (path : Path K V) (h : Nat),
      Bal t h → RedOk t → PathInv path h →
      (isRedB t = true → headColor path = Color.black ∧ path ≠ []) →
      ∀ {T' : Tree K V} {k0 : K} {v0 : V},
        pop_first_go t path = some (T', k0, v0) →
        RedOk T' ∧ (∃ H, Bal T' H) ∧ isBlackB T' = true := by
  intro t
  induction t with
  | nil => intro path h _ _ _ _ T' k0 v0 hx; cases hx
  | node c l x y r ihl _ =>
    intro path h hbal hred hp hcond T' k0 v0 hx
    rcases l with _ | ⟨cl, ll, xl, yl, rl⟩
    · rw [pop_first_go, Option.some_inj] at hx
      have hT : T' = delete_at c .nil x y r path :=
        (congrArg Prod.fst hx).symm
      rw [hT]
      exact delete_at_valid c .nil x y r path h hbal hred hp
        (fun hcred => hcond (by rw [hcred]; rfl))
    · rw [pop_first_go] at hx
      cases c with
      | black =>
        cases hbal with
        | black hbl hbr =>
          cases hred with
          | black hrl hrr =>
            exact ihl _ _ hbl hrl (PathInv.consBlack hp hrr hbr)
              (fun _ => ⟨rfl, by simp⟩) hx
      | red =>
        cases hbal with
        | red hbl hbr =>
          cases hred with
          | red hrl hrr hbll hbrr =>
            exact ihl _ _ hbl hrl
              (PathInv.consRed hp hrr hbr hbrr (hcond rfl).1 (hcond rfl).2)
              (fun hlr => absurd (isRedB_eq_false_of_black hbll)
                (by simp [hlr])) hx

theorem pop_last_go_valid :
    ∀ (t : Tree K V) (path : Path K V) (h : Nat),
      Bal t h → RedOk t → PathInv path h →
      (isRedB t = true → headColor path = Color.black ∧ path ≠ []) →
      ∀ {T' : Tree K V} {k0 : K} {v0 : V},
        pop_last_go t path = some (T', k0, v0) →
        RedOk T' ∧ (∃ H, Bal T' H) ∧ isBlackB T' = true := by
  intro t
  induction t with
  | nil => intro path h _ _ _ _ T' k0 v0 hx; cases hx
  | node c l x y r _ ihr =>
    intro path h hbal hred hp hcond T' k0 v0 hx
    rcases r with _ | ⟨cr, rl, xr, yr, rr⟩
    · rw [pop_last_go, Option.some_inj] at hx
      have hT : T' = delete_at c l x y .nil path :=
        (congrArg Prod.fst hx).symm
      rw [hT]
      exact delete_at_valid c l x y .nil path h hbal hred hp
        (fun hcred => hcond (by rw [hcred]; rfl))
    · rw [pop_last_go] at hx
      cases c with
      | black =>
        cases hbal with
        | black hbl hbr =>
          cases hred with
          | black hrl hrr =>
            exact ihr _ _ hbr hrr (PathInv.consBlack hp hrl hbl)
              (fun _ => ⟨rfl, by simp⟩) hx
      | red =>
        cases hbal with
        | red hbl hbr =>
          cases hred with
          | red hrl hrr hbll hbrr =>
            exact ihr _ _ hbr hrr
              (PathInv.consRed hp hrl hbl hbll (hcond rfl).1 (hcond rfl).2)
              (fun hlr => absurd (isRedB_eq_false_of_black hbrr)
                (by simp [hlr])) hx

/-- Container-level description of `pop_first` on a valid non-empty tree. -/
theorem pop_first_spec {t : RBTree K V} (hv : validB t = true)
    (hne : t.root ≠ .nil) :
    ∃ k0 v0 t', t.pop_first = some ((k0, v0), t') ∧
      inorder t.root = (k0, v0) :: inorder t'.root ∧
      t'.len = t.len - 1 ∧ validB t' = true := by
  obtain ⟨hb, hro, ⟨h, hbal⟩, ho, hlen⟩ := validB_iff.mp hv
  obtain ⟨T', k0, v0, rest0, heq, hino, hT⟩ :=
    pop_first_go_some t.root hne []
  have hvalid := pop_first_go_valid t.root [] h hbal hro PathInv.nil
    (fun hr => absurd hr (by simp [isRedB_eq_false_of_black hb])) heq
  refine ⟨k0, v0, ⟨T', t.len - 1⟩, ?_, ?_, rfl, ?_⟩
  · rw [RBTree.pop_first, heq]
  · rw [hino, hT]
    rfl
  · refine validB_iff.mpr ⟨hvalid.2.2, hvalid.1, hvalid.2.1, ?_, ?_⟩
    · rw [ordered_iff_pairwise]
      show (inorder T').Pairwise _
      rw [hT]
      show rest0.Pairwise _
      have := ordered_iff_pairwise.mp ho
      rw [hino, List.pairwise_cons] at this
      exact this.2
    · show t.len - 1 = (inorder T').length
      rw [hT]
      show t.len - 1 = rest0.length
      rw [hlen, hino]
      simp

/-- Container-level description of `pop_last` on a valid non-empty tree. -/
theorem pop_last_spec {t : RBTree K V} (hv : validB t = true)
    (hne : t.root ≠ .nil) :
    ∃ k1 v1 t', t.pop_last = some ((k1, v1), t') ∧
      inorder t.root = inorder t'.root ++ [(k1, v1)] ∧
      t'.len = t.len - 1 ∧ validB t' = true := by
  obtain ⟨hb, hro, ⟨h, hbal⟩, ho, hlen⟩ := validB_iff.mp hv
  obtain ⟨T', k1, v1, rest0, heq, hino, hT⟩ :=
    pop_last_go_some t.root hne []
  have hvalid := pop_last_go_valid t.root [] h hbal hro PathInv.nil
    (fun hr => absurd hr (by simp [isRedB_eq_false_of_black hb])) heq
  refine ⟨k1, v1, ⟨T', t.len - 1⟩, ?_, ?_, rfl, ?_⟩
  · rw [RBTree.pop_last, heq]
  · rw [hino, hT]
    rfl
  · refine validB_iff.mpr ⟨hvalid.2.2, hvalid.1, hvalid.2.1, ?_, ?_⟩
    · rw [ordered_iff_pairwise]
      show (inorder T').Pairwise _
      rw [hT]
      show rest0.Pairwise _
      have := ordered_iff_pairwise.mp ho
      rw [hino] at this
      exact (List.pairwise_append.mp this).1
    · show t.len - 1 = (inorder T').length
      rw [hT]
      show t.len - 1 = rest0.length
      rw [hlen, hino]
      simp

end PopLemmas

section FindLessEqualLemmas

variable [LinearOrder K]

/-- Master invariant of the `find_less_equal` search loop, for an
accumulator whose key is below the query and below the whole subtree:
the result, if present, is an entry at or below the query (or the
accumulator itself); an exact hit reports the query key; on an inexact
result no entry of the subtree lies strictly between the result key and
the query; and a subtree entirely above the query leaves the accumulator
untouched with `false`. -/
theorem find_less_equal_go_spec {t : Tree K V} (ho : Ordered t) (k : K) :
    ∀ (less : Option (K × V)),
      (∀ q, less = some q → q.1 < k ∧ ∀ p ∈ inorder t, q.1 < p.1) →
      (∀ p, (find_less_equal_go t less k).1 = some p →
          (p ∈ inorder t ∧ p.1 ≤ k) ∨ less = some p) ∧
      ((find_less_equal_go t less k).2 = true →
          ∃ p, (find_less_equal_go t less k).1 = some p ∧ p.1 = k) ∧
      ((find_less_equal_go t less k).2 = false →
          ∀ p, (find_less_equal_go t less k).1 = some p →
          ∀ q ∈ inorder t, p.1 < q.1 → k < q.1) ∧
      ((∀ q ∈ inorder t, k < q.1) →
          find_less_equal_go t less k = (less, false)) := by
  induction t with
  | nil =>
    intro less hacc
    refine ⟨fun p hp => Or.inr hp, fun hx => absurd hx (by simp
      [find_less_equal_go]), fun _ p _ q hq => absurd hq (by
      simp [inorder]), fun _ => rfl⟩
  | node c l x y r ihl ihr =>
    intro less hacc
    cases ho with
    | node hol hor hlx hxr =>
      rw [find_less_equal_go]
      cases hc : cmp k x
      · -- k < x: descend left with the same accumulator
        have hk := cmp_lt_iff.mp hc
        dsimp only
        have hacc' : ∀ q, less = some q →
            q.1 < k ∧ ∀ p ∈ inorder l, q.1 < p.1 := by
          intro q hq
          exact ⟨(hacc q hq).1, fun p hp => (hacc q hq).2 p
            (by simp [inorder, hp])⟩
        obtain ⟨hA, hB, hC, hE⟩ := ihl hol less hacc'
        refine ⟨?_, hB, ?_, ?_⟩
        · intro p hp
          rcases hA p hp with ⟨hm, hle⟩ | hl
          · exact Or.inl ⟨by simp [inorder, hm], hle⟩
          · exact Or.inr hl
        · intro hf p hp q hq hlt
          simp only [inorder, List.mem_append, List.mem_cons] at hq
          rcases hq with hq | hq | hq
          · exact hC hf p hp q hq hlt
          · rw [hq]
            exact hk
          · exact lt_trans hk (hxr q hq)
        · intro hall
          exact hE (fun q hq => hall q (by simp [inorder, hq]))
      · -- exact hit
        have hk := cmp_eq_iff.mp hc
        subst hk
        dsimp only
        refine ⟨?_, ?_, ?_, ?_⟩
        · intro p hp
          rw [Option.some_inj] at hp
          exact Or.inl ⟨by simp [inorder, ← hp], by rw [← hp]⟩
        · intro _
          exact ⟨(k, y), rfl, rfl⟩
        · intro hf
          exact absurd hf (by simp)
        · intro hall
          exact absurd (hall (k, y) (by simp [inorder]))
            (lt_irrefl k)
      · -- x < k: memorize the node and descend right
        have hk := cmp_gt_iff.mp hc
        dsimp only
        have hacc' : ∀ q, some (x, y) = some q →
            q.1 < k ∧ ∀ p ∈ inorder r, q.1 < p.1 := by
          intro q hq
          rw [Option.some_inj] at hq
          exact ⟨by rw [← hq]; exact hk, fun p hp => by
            rw [← hq]; exact hxr p hp⟩
        obtain ⟨hA, hB, hC, hE⟩ := ihr hor (some (x, y)) hacc'
        have hgex : ∀ p, (find_less_equal_go r (some (x, y)) k).1 =
            some p → x ≤ p.1 := by
          intro p hp
          rcases hA p hp with ⟨hm, _⟩ | hl
          · exact le_of_lt (hxr p hm)
          · rw [Option.some_inj] at hl
            rw [← hl]
        refine ⟨?_, hB, ?_, ?_⟩
        · intro p hp
          rcases hA p hp with ⟨hm, hle⟩ | hl
          · exact Or.inl ⟨by simp [inorder, hm], hle⟩
          · rw [Option.some_inj] at hl
            exact Or.inl ⟨by simp [inorder, ← hl], by
              rw [← hl]; exact le_of_lt hk⟩
        · intro hf p hp q hq hlt
          simp only [inorder, List.mem_append, List.mem_cons] at hq
          rcases hq with hq | hq | hq
          · exact absurd hlt (not_lt.mpr (le_of_lt
              (lt_of_lt_of_le (hlx q hq) (hgex p hp))))
          · rw [hq] at hlt
            exact absurd (lt_of_le_of_lt (hgex p hp) hlt) (lt_irrefl x)
          · exact hC hf p hp q hq hlt
        · intro hall
          exact absurd (lt_trans hk (hall (x, y) (by simp [inorder])))
            (lt_irrefl x)

end FindLessEqualLemmas

section BuildLemmas

variable [LinearOrder K]

theorem listInsert_mem_ne {k : K} {v : V} {p : K × V} (hne : p.1 ≠ k) :
    ∀ {l : List (K × V)}, p ∈ listInsert k v l ↔ p ∈ l := by
  intro l
  induction l with
  | nil =>
    simp only [listInsert, List.mem_singleton, List.not_mem_nil,
      iff_false]
    intro hcon
    exact hne (by rw [hcon])
  | cons q l ih =>
    obtain ⟨a, b⟩ := q
    cases hc : cmp k a <;> rw [listInsert, hc]
    · simp only [List.mem_cons]
      constructor
      · rintro (rfl | h)
        · exact absurd rfl hne
        · exact h
      · exact Or.inr
    · have hka : k = a := cmp_eq_iff.mp hc
      simp only [List.mem_cons]
      constructor
      · rintro (rfl | h)
        · exact absurd (by rw [hka]) hne
        · exact Or.inr h
      · rintro (rfl | h)
        · exact absurd (by rw [hka]) hne
        · exact Or.inr h
    · simp only [List.mem_cons, ih]

theorem listInsert_map_fst_toFinset [DecidableEq K] {k : K} {v : V} :
    ∀ {l : List (K × V)},
      ((listInsert k v l).map Prod.fst).toFinset =
        insert k (l.map Prod.fst).toFinset := by
  intro l
  induction l with
  | nil => simp [listInsert]
  | cons q l ih =>
    obtain ⟨a, b⟩ := q
    cases hc : cmp k a <;> rw [listInsert, hc]
    · simp
    · have hka : k = a := cmp_eq_iff.mp hc
      simp [hka]
    · simp only [List.map_cons, List.toFinset_cons, ih]
      ext z
      simp only [Finset.mem_insert]
      tauto

/-- The effect of one insertion on a single lookup: the inserted key now
maps to the new value, every other key is untouched. -/
theorem get_insert {t : RBTree K V} (hv : validB t = true) (a : K)
    (b : V) (k : K) :
    ((t.insert a b).1).get k = if k = a then some b else t.get k := by
  obtain ⟨_, _, _, ho, _⟩ := validB_iff.mp hv
  obtain ⟨_, _, _, ho1, _⟩ := validB_iff.mp (insert_validB hv a b)
  have hino : inorder (t.insert a b).1.root =
      listInsert a b (inorder t.root) := insert_root_inorder ho a b
  by_cases hk : k = a
  · subst hk
    have hmem : (k, b) ∈ inorder (t.insert k b).1.root := by
      rw [hino]
      exact listInsert_mem_self (ordered_iff_pairwise.mp ho)
    rw [if_pos rfl, RBTree.get, (find_node_some_iff ho1).mpr ⟨hmem, rfl⟩]
    rfl
  · rw [if_neg hk, RBTree.get, RBTree.get]
    cases hf : find_node t.root k with
    | some p =>
      obtain ⟨hm, hpk⟩ := (find_node_some_iff ho).mp hf
      have hmem : p ∈ inorder (t.insert a b).1.root := by
        rw [hino]
        exact (listInsert_mem_ne (by rw [hpk]; exact hk)).mpr hm
      rw [(find_node_some_iff ho1).mpr ⟨hmem, hpk⟩]
    | none =>
      rw [(find_node_none_iff ho1).mpr]
      intro hmem
      rw [keyList, hino, List.mem_map] at hmem
      obtain ⟨p, hp, hpk⟩ := hmem
      rcases listInsert_keys_sub p hp with h1 | h1
      · exact hk (by rw [← hpk, h1])
      · rw [hpk] at h1
        exact absurd h1 ((find_node_none_iff ho).mp hf)

/-- Value of the last pair carrying a given key in a sequence of pairs;
absent when no pair carries the key.  This is the value `extend` leaves in
the map, later inserts overwriting earlier ones. -/
def lastValue (k : K) : List (K × V) → Option V
  | [] => none
  | (a, b) :: t =>
    match lastValue k t with
    | some v => some v
    | none => if a = k then some b else none

theorem validB_new : validB (RBTree.new : RBTree K V) = true := rfl

theorem extendList_validB {t : RBTree K V} (hv : validB t = true) :
    ∀ l : List (K × V), validB (t.extendList l) = true := by
  intro l
  induction l generalizing t with
  | nil => exact hv
  | cons p l ih => exact ih (insert_validB hv p.1 p.2)

theorem fromList_validB (l : List (K × V)) :
    validB (RBTree.fromList l) = true :=
  extendList_validB validB_new l

/-- Lookup after a batch of inserts: the last inserted value for the key
wins, and keys never inserted keep their prior binding. -/
theorem extendList_get {t : RBTree K V} (hv : validB t = true) (k : K) :
    ∀ l : List (K × V),
      (t.extendList l).get k =
        match lastValue k l with
        | some v => some v
        | none => t.get k := by
  intro l
  induction l generalizing t with
  | nil => rfl
  | cons p l ih =>
    obtain ⟨a, b⟩ := p
    show (RBTree.extendList (t.insert a b).1 l).get k = _
    rw [ih (insert_validB hv a b), get_insert hv a b k, lastValue]
    cases hl : lastValue k l with
    | some v => rfl
    | none =>
      by_cases hak : a = k
      · rw [if_pos hak, if_pos (by rw [hak])]
      · rw [if_neg hak, if_neg (fun hc => hak (by rw [hc]))]

theorem fromList_get (l : List (K × V)) (k : K) :
    (RBTree.fromList l).get k =
      match lastValue k l with
      | some v => some v
      | none => none := by
  rw [RBTree.fromList, extendList_get validB_new k l]
  cases lastValue k l <;> rfl

theorem extendList_keys [DecidableEq K] {t : RBTree K V}
    (hv : validB t = true) :
    ∀ l : List (K × V),
      ((inorder (t.extendList l).root).map Prod.fst).toFinset =
        ((inorder t.root).map Prod.fst).toFinset ∪
          (l.map Prod.fst).toFinset := by
  intro l
  induction l generalizing t with
  | nil => simp [RBTree.extendList]
  | cons p l ih =>
    obtain ⟨a, b⟩ := p
    obtain ⟨_, _, _, ho, _⟩ := validB_iff.mp hv
    show ((inorder (RBTree.extendList (t.insert a b).1 l).root).map
      Prod.fst).toFinset = _
    rw [ih (insert_validB hv a b), insert_root_inorder ho,
      listInsert_map_fst_toFinset]
    simp only [List.map_cons, List.toFinset_cons]
    rw [Finset.insert_union, Finset.union_insert]

theorem sorted_keys_nodup {l : List (K × V)}
    (hs : l.Pairwise (fun p q => p.1 < q.1)) :
    (l.map Prod.fst).Nodup := by
  show (l.map Prod.fst).Pairwise (fun a b => a ≠ b)
  rw [List.pairwise_map]
  exact hs.imp (fun h => ne_of_lt h)

/-- The stored length of a built tree counts the distinct keys of the
sequence. -/
theorem fromList_len [DecidableEq K] (l : List (K × V)) :
    (RBTree.fromList l).len = (l.map Prod.fst).toFinset.card := by
  obtain ⟨_, _, _, ho, hlen⟩ := validB_iff.mp (fromList_validB l)
  have hnd := sorted_keys_nodup (ordered_iff_pairwise.mp ho)
  have hkeys := extendList_keys (t := RBTree.new) validB_new l
  have hkeys2 : ((inorder (RBTree.fromList l).root).map
      Prod.fst).toFinset = (l.map Prod.fst).toFinset := by
    rw [RBTree.fromList, hkeys]
    simp [RBTree.new, inorder]
  have hlm : (inorder (RBTree.fromList l).root).length =
      ((inorder (RBTree.fromList l).root).map Prod.fst).length := by
    simp
  rw [hlen, hlm, ← List.toFinset_card_of_nodup hnd, hkeys2]

theorem lastValue_mem_iff {l : List (K × V)}
    (hnd : (l.map Prod.fst).Nodup) (k : K) :
    ∀ v : V, lastValue k l = some v ↔ (k, v) ∈ l := by
  induction l with
  | nil =>
    intro v
    simp [lastValue]
  | cons p l ih =>
    obtain ⟨a, b⟩ := p
    rw [List.map_cons, List.nodup_cons] at hnd
    have ihl := ih hnd.2
    intro v
    rw [lastValue]
    cases hl : lastValue k l with
    | some w =>
      have hmem : (k, w) ∈ l := (ihl w).mp hl
      have hkl : k ∈ l.map Prod.fst := List.mem_map_of_mem Prod.fst hmem
      simp only [List.mem_cons, Option.some_inj]
      constructor
      · rintro rfl
        exact Or.inr hmem
      · rintro (hpe | hpe)
        · exact absurd hkl (by
            rw [show k = a from congrArg Prod.fst hpe]
            exact hnd.1)
        · have hv := (ihl v).mpr hpe
          rw [hl] at hv
          exact Option.some_inj.mp hv
    | none =>
      by_cases hak : a = k
      · subst hak
        rw [if_pos rfl]
        simp only [List.mem_cons, Option.some_inj, Prod.mk.injEq,
          true_and]
        constructor
        · rintro rfl
          exact Or.inl rfl
        · rintro (hv | hpe)
          · exact hv.symm
          · exact absurd (List.mem_map_of_mem Prod.fst hpe) hnd.1
      · rw [if_neg hak]
        constructor
        · intro hcon
          cases hcon
        · intro hmem
          rcases List.mem_cons.mp hmem with hpe | hpe
          · exact absurd (show k = a from congrArg Prod.fst hpe).symm hak
          · have hv := (ihl v).mpr hpe
            rw [hl] at hv
            cases hv

end BuildLemmas


section EqualityLemmas

variable [LinearOrder K]

/-- A lookup succeeds with exactly the values paired with the key in the
entry sequence. -/
theorem get_some_iff {t : RBTree K V} (ho : Ordered t.root) {k : K}
    {v : V} : t.get k = some v ↔ (k, v) ∈ inorder t.root := by
  rw [RBTree.get]
  constructor
  · intro h
    cases hf : find_node t.root k with
    | none =>
      rw [hf] at h
      cases h
    | some p =>
      rw [hf] at h
      obtain ⟨hm, hpk⟩ := (find_node_some_iff ho).mp hf
      obtain ⟨p1, p2⟩ := p
      have h2 : p2 = v := by simpa using h
      rw [show (k, v) = (p1, p2) from by rw [Prod.mk.injEq]; exact ⟨hpk.symm, h2.symm⟩]
      exact hm
  · intro hm
    rw [(find_node_some_iff ho).mpr ⟨hm, rfl⟩]
    rfl

/-- Unfolding of the executable equality test. -/
theorem eqB_true_iff [DecidableEq V] (a b : RBTree K V) :
    RBTree.eqB a b = true ↔
      a.len = b.len ∧ ∀ p ∈ inorder a.root, b.get p.1 = some p.2 := by
  rw [RBTree.eqB]
  by_cases hlen : a.len = b.len
  · rw [if_neg (not_not_intro hlen), List.all_eq_true]
    constructor
    · intro h
      refine ⟨hlen, fun p hp => ?_⟩
      have hb := h p hp
      cases hg : b.get p.1 with
      | none =>
        rw [hg] at hb
        cases hb
      | some v =>
        rw [hg] at hb
        have : v = p.2 := by simpa using hb
        rw [this]
    · intro h p hp
      rw [h.2 p hp]
      simp
  · rw [if_pos hlen]
    constructor
    · intro hcon
      cases hcon
    · intro hcon
      exact absurd hcon.1 hlen

theorem eqB_refl [DecidableEq V] {t : RBTree K V}
    (hv : validB t = true) : RBTree.eqB t t = true := by
  obtain ⟨_, _, _, ho, _⟩ := validB_iff.mp hv
  rw [eqB_true_iff]
  exact ⟨rfl, fun p hp => (get_some_iff ho).mpr hp⟩

/-- Trees built from permutations of the same duplicate-free pair
sequence are equal. -/
theorem eqB_fromList_perm [DecidableEq V] {l1 l2 : List (K × V)}
    (hperm : l1.Perm l2) (hnd : (l1.map Prod.fst).Nodup) :
    RBTree.eqB (RBTree.fromList l1) (RBTree.fromList l2) = true := by
  have hnd2 : (l2.map Prod.fst).Nodup :=
    (hperm.map Prod.fst).nodup_iff.mp hnd
  rw [eqB_true_iff]
  constructor
  · rw [fromList_len, fromList_len, List.toFinset_eq_of_perm _ _ (hperm.map Prod.fst)]
  · intro p hp
    obtain ⟨_, _, _, ho1, _⟩ := validB_iff.mp (fromList_validB l1)
    have hg1 : (RBTree.fromList l1).get p.1 = some p.2 :=
      (get_some_iff ho1).mpr hp
    rw [fromList_get] at hg1
    have hlv1 : lastValue p.1 l1 = some p.2 := by
      cases hl : lastValue p.1 l1 with
      | none =>
        rw [hl] at hg1
        cases hg1
      | some v =>
        rw [hl] at hg1
        exact hg1
    have hmem1 : (p.1, p.2) ∈ l1 :=
      (lastValue_mem_iff hnd p.1 p.2).mp hlv1
    have hmem2 : (p.1, p.2) ∈ l2 := hperm.mem_iff.mp hmem1
    have hlv2 : lastValue p.1 l2 = some p.2 :=
      (lastValue_mem_iff hnd2 p.1 p.2).mpr hmem2
    rw [fromList_get, hlv2]

end EqualityLemmas

section OpsLemmas

variable [LinearOrder K]

theorem pop_first_of_nil {t : RBTree K V} (h : t.root = .nil) :
    t.pop_first = none := by
  rw [RBTree.pop_first, h]
  rfl

theorem pop_last_of_nil {t : RBTree K V} (h : t.root = .nil) :
    t.pop_last = none := by
  rw [RBTree.pop_last, h]
  rfl

theorem runOps_validB_aux (ops : List (Op K V)) :
    ∀ t : RBTree K V, validB t = true →
      validB (ops.foldl
        (fun t op => match op with
          | .ins k v => (t.insert k v).1
          | .del k => (t.remove k).1) t) = true := by
  induction ops with
  | nil =>
    intro t hv
    exact hv
  | cons op ops ih =>
    intro t hv
    cases op with
    | ins k v => exact ih _ (insert_validB hv k v)
    | del k => exact ih _ (remove_validB hv k)

end OpsLemmas


section Claims

variable [LinearOrder K]

/-- C1: For every sequence of insert and remove operations starting from
the empty tree, the resulting tree satisfies all red-black structural
invariants checked by `validB`: black (or absent) root, no red node with a
red child, a well-defined black height (equal black count on every
root-to-absent-link path), strictly ascending in-order keys, and stored
length equal to the number of reachable nodes.  The sequence `ops` is
universally quantified, so the invariant holds after every prefix of any
operation sequence, that is, after each operation.  (The sixth invariant of
the claim, that every non-root node is exactly one of its parent's
children, is intrinsic to this embedding: a subtree exists only in the one
child slot of the node owning it, as parent pointers are represented by
the path from the root.) -/
theorem C1_invariants (ops : List (Op K V)) :
    validB (runOps ops) = true :=
  runOps_validB_aux ops RBTree.new validB_new

/-- C2: After `insert(k, v1)` on a valid tree, a second `insert(k, v2)`
returns `some v1`, leaves `get(k) = some v2`, and leaves the length
unchanged by the second call. -/
theorem C2_insert_overwrite (t : RBTree K V) (k : K) (v1 v2 : V)
    (hv : validB t = true) :
    ((t.insert k v1).1.insert k v2).2 = some v1 ∧
    ((t.insert k v1).1.insert k v2).1.get k = some v2 ∧
    ((t.insert k v1).1.insert k v2).1.len = (t.insert k v1).1.len := by
  have hv1 := insert_validB hv k v1
  obtain ⟨_, _, _, ho, _⟩ := validB_iff.mp hv
  obtain ⟨_, _, _, ho1, _⟩ := validB_iff.mp hv1
  have hm1 : (k, v1) ∈ inorder (t.insert k v1).1.root := by
    rw [insert_root_inorder ho]
    exact listInsert_mem_self (ordered_iff_pairwise.mp ho)
  have hf1 : find_node (t.insert k v1).1.root k = some (k, v1) :=
    (find_node_some_iff ho1).mpr ⟨hm1, rfl⟩
  refine ⟨?_, ?_, ?_⟩
  · rw [insert_snd, hf1]
    rfl
  · rw [get_insert hv1 k v2 k, if_pos rfl]
  · rw [insert_fst_len, hf1]
    simp

theorem C2_insert_overwrite_witness :
    validB (RBTree.new : RBTree Int Int) = true ∧
    ((((RBTree.new : RBTree Int Int).insert 2 4).1.insert 2 6).2 =
        some 4 ∧
      (((RBTree.new : RBTree Int Int).insert 2 4).1.insert 2 6).1.get 2 =
        some 6 ∧
      (((RBTree.new : RBTree Int Int).insert 2 4).1.insert 2 6).1.len =
        ((RBTree.new : RBTree Int Int).insert 2 4).1.len) :=
  ⟨by decide, C2_insert_overwrite RBTree.new 2 4 6 (by decide)⟩

/-- C3: On a valid tree, `find_less_equal(k)` returns a pair whose key is
at most `k`; when the exact flag is true the returned key equals `k`; when
the exact flag is false and a pair is returned, every entry whose key lies
above the returned key — in particular the in-order successor of the
returned node — has key above `k`; and when every key of the tree is
above `k` (in particular on the empty tree) the result is absent with a
false flag. -/
theorem C3_find_less_equal (t : RBTree K V) (k : K)
    (hv : validB t = true) :
    (∀ kr vr, (t.find_less_equal k).1 = some (kr, vr) → kr ≤ k) ∧
    ((t.find_less_equal k).2 = true →
      ∃ vr, (t.find_less_equal k).1 = some (k, vr)) ∧
    ((t.find_less_equal k).2 = false →
      ∀ kr vr, (t.find_less_equal k).1 = some (kr, vr) →
        ∀ q ∈ inorder t.root, kr < q.1 → k < q.1) ∧
    ((∀ q ∈ inorder t.root, k < q.1) →
      t.find_less_equal k = (none, false)) := by
  obtain ⟨_, _, _, ho, _⟩ := validB_iff.mp hv
  obtain ⟨hA, hB, hC, hE⟩ :=
    find_less_equal_go_spec ho k none (fun q hq => by cases hq)
  simp only [RBTree.find_less_equal]
  refine ⟨?_, ?_, ?_, hE⟩
  · intro kr vr h
    rcases hA (kr, vr) h with ⟨_, hle⟩ | hcon
    · exact hle
    · cases hcon
  · intro hex
    obtain ⟨p, hp, hpk⟩ := hB hex
    refine ⟨p.2, ?_⟩
    rw [hp, show (k, p.2) = p from by rw [← hpk]]
  · intro hex kr vr h q hq hlt
    exact hC hex (kr, vr) h q hq hlt

theorem C3_find_less_equal_witness :
    validB (RBTree.fromList [((1 : Int), (12 : Int)), (2, 8), (5, 14)]) =
        true ∧
    ((∀ kr vr,
        ((RBTree.fromList [((1 : Int), (12 : Int)), (2, 8),
          (5, 14)]).find_less_equal 3).1 = some (kr, vr) → kr ≤ 3) ∧
      (((RBTree.fromList [((1 : Int), (12 : Int)), (2, 8),
          (5, 14)]).find_less_equal 3).2 = true →
        ∃ vr, ((RBTree.fromList [((1 : Int), (12 : Int)), (2, 8),
          (5, 14)]).find_less_equal 3).1 = some (3, vr)) ∧
      (((RBTree.fromList [((1 : Int), (12 : Int)), (2, 8),
          (5, 14)]).find_less_equal 3).2 = false →
        ∀ kr vr, ((RBTree.fromList [((1 : Int), (12 : Int)), (2, 8),
          (5, 14)]).find_less_equal 3).1 = some (kr, vr) →
          ∀ q ∈ inorder (RBTree.fromList [((1 : Int), (12 : Int)), (2, 8),
            (5, 14)]).root, kr < q.1 → 3 < q.1) ∧
      ((∀ q ∈ inorder (RBTree.fromList [((1 : Int), (12 : Int)), (2, 8),
          (5, 14)]).root, 3 < q.1) →
        (RBTree.fromList [((1 : Int), (12 : Int)), (2, 8),
          (5, 14)]).find_less_equal 3 = (none, false))) :=
  ⟨by decide,
    C3_find_less_equal (RBTree.fromList [(1, 12), (2, 8), (5, 14)]) 3
      (by decide)⟩

/-- C4: On a valid tree not containing `k`, `insert(k, v)` followed by
`remove(k)` makes the removal return `some v`, restores the length to its
value before the insert, and leaves `contains_key k = false`. -/
theorem C4_insert_remove_roundtrip (t : RBTree K V) (k : K) (v : V)
    (hv : validB t = true) (hni : t.contains_key k = false) :
    ((t.insert k v).1.remove k).2 = some v ∧
    ((t.insert k v).1.remove k).1.len = t.len ∧
    ((t.insert k v).1.remove k).1.contains_key k = false := by
  have hv1 := insert_validB hv k v
  have hv2 := remove_validB hv1 k
  obtain ⟨_, _, _, ho, _⟩ := validB_iff.mp hv
  obtain ⟨_, _, _, ho1, _⟩ := validB_iff.mp hv1
  obtain ⟨_, _, _, ho2, _⟩ := validB_iff.mp hv2
  have hf0 : find_node t.root k = none := by
    rw [RBTree.contains_key] at hni
    cases hf : find_node t.root k with
    | none => rfl
    | some p =>
      rw [hf] at hni
      cases hni
  have hm1 : (k, v) ∈ inorder (t.insert k v).1.root := by
    rw [insert_root_inorder ho]
    exact listInsert_mem_self (ordered_iff_pairwise.mp ho)
  have hf1 : find_node (t.insert k v).1.root k = some (k, v) :=
    (find_node_some_iff ho1).mpr ⟨hm1, rfl⟩
  refine ⟨?_, ?_, ?_⟩
  · rw [remove_snd ho1, hf1]
    rfl
  · rw [remove_fst_len, hf1, insert_fst_len, hf0]
    simp
  · have hnone : find_node ((t.insert k v).1.remove k).1.root k =
        none := by
      refine (find_node_none_iff ho2).mpr ?_
      intro hmem
      rw [keyList, remove_root_inorder ho1, List.mem_map] at hmem
      obtain ⟨p, hp, hpk⟩ := hmem
      rw [listEraseKey, List.mem_filter] at hp
      have hne := hp.2
      simp only [decide_eq_true_eq] at hne
      exact hne hpk
    rw [RBTree.contains_key, hnone]
    rfl

theorem C4_insert_remove_roundtrip_witness :
    (validB (RBTree.fromList [((1 : Int), (2 : Int))]) = true ∧
      (RBTree.fromList [((1 : Int), (2 : Int))]).contains_key 5 =
        false) ∧
    (((RBTree.fromList [((1 : Int), (2 : Int))]).insert 5 3).1.remove
        5).2 = some 3 ∧
    (((RBTree.fromList [((1 : Int), (2 : Int))]).insert 5 3).1.remove
        5).1.len = (RBTree.fromList [((1 : Int), (2 : Int))]).len ∧
    (((RBTree.fromList [((1 : Int), (2 : Int))]).insert 5 3).1.remove
        5).1.contains_key 5 = false :=
  ⟨⟨by decide, by decide⟩,
    C4_insert_remove_roundtrip (RBTree.fromList [(1, 2)]) 5 3
      (by decide) (by decide)⟩

/-- C5: The claim fails on the code as written: on the one-entry tree
with key 1 and value 2 the cursor of `iter()` advanced exclusively by
`next_back` reports exhaustion immediately — `next_back` returns absent
although one entry was never yielded, because the source's backward step
stops as soon as the tail pointer equals the head pointer instead of
stopping only after yielding that shared node.  The size hint still
reports exactly one remaining entry, and the forward step `next` does
yield the entry, so the entry is reachable and only the backward
direction drops it. -/
theorem C5_next_back_drops_last_entry :
    ((RBTree.new : RBTree Int Int).insert 1 2).1.len = 1 ∧
    (((RBTree.new : RBTree Int Int).insert 1 2).1.iter).sizeHint =
      (1, some 1) ∧
    (((RBTree.new : RBTree Int Int).insert 1 2).1.iter).nextBack =
      none ∧
    ((((RBTree.new : RBTree Int Int).insert 1 2).1.iter).next).map
      Prod.fst = some (1, 2) := by
  decide

/-- C6: The equality test holds exactly when the two trees have equal
length and every entry of the left tree is found in the right tree with an
equal value; consequently a valid tree equals itself, and two trees built
by inserting permutations of the same duplicate-free-key pair sequence
compare equal. -/
theorem C6_equality [DecidableEq V] (a b t : RBTree K V)
    (l1 l2 : List (K × V)) (hv : validB t = true) (hperm : l1.Perm l2)
    (hnd : (l1.map Prod.fst).Nodup) :
    (RBTree.eqB a b = true ↔
      a.len = b.len ∧ ∀ p ∈ inorder a.root, b.get p.1 = some p.2) ∧
    RBTree.eqB t t = true ∧
    RBTree.eqB (RBTree.fromList l1) (RBTree.fromList l2) = true :=
  ⟨eqB_true_iff a b, eqB_refl hv, eqB_fromList_perm hperm hnd⟩

theorem C6_equality_witness :
    (validB (RBTree.fromList [((1 : Int), (2 : Int)), (2, 3)]) = true ∧
      List.Perm [((1 : Int), (2 : Int)), (2, 3), (3, 4)]
        [(3, 4), (1, 2), (2, 3)] ∧
      (([((1 : Int), (2 : Int)), (2, 3), (3, 4)]).map
        Prod.fst).Nodup) ∧
    ((RBTree.eqB (RBTree.fromList [((5 : Int), (6 : Int))])
        RBTree.new = true ↔
      (RBTree.fromList [((5 : Int), (6 : Int))]).len =
          (RBTree.new : RBTree Int Int).len ∧
        ∀ p ∈ inorder (RBTree.fromList [((5 : Int), (6 : Int))]).root,
          (RBTree.new : RBTree Int Int).get p.1 = some p.2) ∧
      RBTree.eqB (RBTree.fromList [((1 : Int), (2 : Int)), (2, 3)])
        (RBTree.fromList [((1 : Int), (2 : Int)), (2, 3)]) = true ∧
      RBTree.eqB (RBTree.fromList [((1 : Int), (2 : Int)), (2, 3),
        (3, 4)]) (RBTree.fromList [(3, 4), (1, 2), (2, 3)]) = true) :=
  ⟨⟨by decide, by decide, by decide⟩,
    C6_equality (RBTree.fromList [(5, 6)]) RBTree.new
      (RBTree.fromList [(1, 2), (2, 3)])
      [(1, 2), (2, 3), (3, 4)] [(3, 4), (1, 2), (2, 3)]
      (by decide) (by decide) (by decide)⟩

/-- C7: On a valid non-empty tree, `pop_first` returns the entry with the
minimum key and unlinks exactly that node — the remaining entry sequence
is the tail of the original, the length drops by one and the invariants
hold — and symmetrically `pop_last` returns and unlinks the entry with the
maximum key; on the empty tree both return absent. -/
theorem C7_pop_first_pop_last (t : RBTree K V) (hv : validB t = true) :
    (t.root = Tree.nil → t.pop_first = none ∧ t.pop_last = none) ∧
    (t.root ≠ Tree.nil →
      (∃ k0 v0 t1, t.pop_first = some ((k0, v0), t1) ∧
        (k0, v0) ∈ inorder t.root ∧
        (∀ q ∈ inorder t.root, k0 ≤ q.1) ∧
        inorder t1.root = (inorder t.root).tail ∧
        t1.len = t.len - 1 ∧ validB t1 = true) ∧
      (∃ k1 v1 t2, t.pop_last = some ((k1, v1), t2) ∧
        (k1, v1) ∈ inorder t.root ∧
        (∀ q ∈ inorder t.root, q.1 ≤ k1) ∧
        inorder t2.root = (inorder t.root).dropLast ∧
        t2.len = t.len - 1 ∧ validB t2 = true)) := by
  obtain ⟨_, _, _, ho, _⟩ := validB_iff.mp hv
  refine ⟨fun h => ⟨pop_first_of_nil h, pop_last_of_nil h⟩,
    fun hne => ⟨?_, ?_⟩⟩
  · obtain ⟨k0, v0, t1, hpop, hino, hlen, hv1⟩ := pop_first_spec hv hne
    have hs := ordered_iff_pairwise.mp ho
    rw [hino, List.pairwise_cons] at hs
    refine ⟨k0, v0, t1, hpop, by rw [hino]; simp, ?_,
      by rw [hino]; rfl, hlen, hv1⟩
    intro q hq
    rw [hino, List.mem_cons] at hq
    rcases hq with rfl | hq2
    · exact le_refl k0
    · exact le_of_lt (hs.1 q hq2)
  · obtain ⟨k1, v1, t2, hpop, hino, hlen, hv1⟩ := pop_last_spec hv hne
    have hs := ordered_iff_pairwise.mp ho
    rw [hino, List.pairwise_append] at hs
    refine ⟨k1, v1, t2, hpop, by rw [hino]; simp, ?_,
      by rw [hino, List.dropLast_concat], hlen, hv1⟩
    intro q hq
    rw [hino, List.mem_append] at hq
    rcases hq with hq2 | hq2
    · exact le_of_lt (hs.2.2 q hq2 (k1, v1) (by simp))
    · rw [List.mem_singleton.mp hq2]

theorem C7_pop_first_pop_last_witness :
    validB (RBTree.fromList [((2 : Int), (4 : Int)), (1, 2), (3, 6)]) =
        true ∧
    (((RBTree.fromList [((2 : Int), (4 : Int)), (1, 2),
        (3, 6)]).root = Tree.nil →
      (RBTree.fromList [((2 : Int), (4 : Int)), (1, 2),
        (3, 6)]).pop_first = none ∧
      (RBTree.fromList [((2 : Int), (4 : Int)), (1, 2),
        (3, 6)]).pop_last = none) ∧
    ((RBTree.fromList [((2 : Int), (4 : Int)), (1, 2),
        (3, 6)]).root ≠ Tree.nil →
      (∃ k0 v0 t1, (RBTree.fromList [((2 : Int), (4 : Int)), (1, 2),
          (3, 6)]).pop_first = some ((k0, v0), t1) ∧
        (k0, v0) ∈ inorder (RBTree.fromList [((2 : Int), (4 : Int)),
          (1, 2), (3, 6)]).root ∧
        (∀ q ∈ inorder (RBTree.fromList [((2 : Int), (4 : Int)), (1, 2),
          (3, 6)]).root, k0 ≤ q.1) ∧
        inorder t1.root = (inorder (RBTree.fromList [((2 : Int),
          (4 : Int)), (1, 2), (3, 6)]).root).tail ∧
        t1.len = (RBTree.fromList [((2 : Int), (4 : Int)), (1, 2),
          (3, 6)]).len - 1 ∧ validB t1 = true) ∧
      (∃ k1 v1 t2, (RBTree.fromList [((2 : Int), (4 : Int)), (1, 2),
          (3, 6)]).pop_last = some ((k1, v1), t2) ∧
        (k1, v1) ∈ inorder (RBTree.fromList [((2 : Int), (4 : Int)),
          (1, 2), (3, 6)]).root ∧
        (∀ q ∈ inorder (RBTree.fromList [((2 : Int), (4 : Int)), (1, 2),
          (3, 6)]).root, q.1 ≤ k1) ∧
        inorder t2.root = (inorder (RBTree.fromList [((2 : Int),
          (4 : Int)), (1, 2), (3, 6)]).root).dropLast ∧
        t2.len = (RBTree.fromList [((2 : Int), (4 : Int)), (1, 2),
          (3, 6)]).len - 1 ∧ validB t2 = true))) :=
  ⟨by decide,
    C7_pop_first_pop_last
      (RBTree.fromList [(2, 4), (1, 2), (3, 6)]) (by decide)⟩

/-- C8: Indexing the tree at `k` — `t[k]`, modeled by `indexAt`, whose
absent result is the source's fatal `expect` failure — fails exactly when
`contains_key k` is false, and when the key is present it returns the
value stored with `k` in the tree. -/
theorem C8_index_fails_iff_absent (t : RBTree K V) (k : K)
    (hv : validB t = true) :
    (t.indexAt k = none ↔ t.contains_key k = false) ∧
    ∀ v, t.indexAt k = some v ↔ (k, v) ∈ inorder t.root := by
  obtain ⟨_, _, _, ho, _⟩ := validB_iff.mp hv
  constructor
  · rw [RBTree.indexAt, RBTree.get, RBTree.contains_key]
    cases find_node t.root k <;> simp
  · intro v
    exact get_some_iff ho

theorem C8_index_fails_iff_absent_witness :
    validB (RBTree.fromList [((1 : Int), (2 : Int)), (2, 1), (3, 4)]) =
        true ∧
    (((RBTree.fromList [((1 : Int), (2 : Int)), (2, 1),
        (3, 4)]).indexAt 2 = none ↔
      (RBTree.fromList [((1 : Int), (2 : Int)), (2, 1),
        (3, 4)]).contains_key 2 = false) ∧
    ∀ v, (RBTree.fromList [((1 : Int), (2 : Int)), (2, 1),
        (3, 4)]).indexAt 2 = some v ↔
      (2, v) ∈ inorder (RBTree.fromList [((1 : Int), (2 : Int)), (2, 1),
        (3, 4)]).root) :=
  ⟨by decide,
    C8_index_fails_iff_absent
      (RBTree.fromList [(1, 2), (2, 1), (3, 4)]) 2 (by decide)⟩

/-- C9: Removing an absent key returns absent and leaves the container
completely unchanged — the result is the very same container, hence the
length and every lookup are unchanged. -/
theorem C9_remove_absent (t : RBTree K V) (k : K)
    (hni : t.contains_key k = false) :
    t.remove k = (t, none) ∧ (t.remove k).1.len = t.len ∧
    ∀ q : K, (t.remove k).1.get q = t.get q := by
  have hf : find_node t.root k = none := by
    rw [RBTree.contains_key] at hni
    cases hfn : find_node t.root k with
    | none => rfl
    | some p =>
      rw [hfn] at hni
      cases hni
  have h := remove_of_none hf
  exact ⟨h, by rw [h], fun q => by rw [h]⟩

theorem C9_remove_absent_witness :
    (RBTree.fromList [((1 : Int), (2 : Int))]).contains_key 3 = false ∧
    ((RBTree.fromList [((1 : Int), (2 : Int))]).remove 3 =
        (RBTree.fromList [((1 : Int), (2 : Int))], none) ∧
      ((RBTree.fromList [((1 : Int), (2 : Int))]).remove 3).1.len =
        (RBTree.fromList [((1 : Int), (2 : Int))]).len ∧
      ∀ q : Int, ((RBTree.fromList [((1 : Int),
        (2 : Int))]).remove 3).1.get q =
        (RBTree.fromList [((1 : Int), (2 : Int))]).get q) :=
  ⟨by decide,
    C9_remove_absent (RBTree.fromList [(1, 2)]) 3 (by decide)⟩

/-- C10: The tree built by inserting a pair sequence in order — possibly
with repeated keys — into the empty container has length equal to the
number of distinct keys of the sequence, and looking up any key returns
the value of the last pair of the sequence carrying that key (absent for
a key not in the sequence, so in particular the stated value for each key
of the sequence). -/
theorem C10_from_sequence [DecidableEq K] (l : List (K × V)) (k : K) :
    (RBTree.fromList l).len = (l.map Prod.fst).toFinset.card ∧
    (RBTree.fromList l).get k = lastValue k l := by
  refine ⟨fromList_len l, ?_⟩
  rw [fromList_get]
  cases lastValue k l <;> rfl

end Claims

end RB
